import Mathlib

/-!
Shallow embedding of the Go rules engine in `GoGame/GoBackend.py`.

The board is a flat sequence of `N * N` cells.  The Python module keeps the
board size `N` in module-level mutable state (reconfigured by `set_size`);
here it is threaded everywhere as an explicit parameter, so `NEIGHBORS N`
is the neighbor table the Python module would hold after `set_size(N)`.
Fallible code (`IllegalMove`) is modelled with `Option`; the flood-fill
`while` loop is modelled with explicit fuel, proved sufficient below.
-/

/-- Board cell values.  Modelled from the spec: the source imports `WHITE`,
`BLACK`, `EMPTY` from `Shared.Consts`, a module that is not part of this
repository snapshot.  The spec fixes the cell domain to three distinct
values Empty/Black/White; `Position.score` additionally writes a fourth
distinct neutral marker (the `'?'` character literal in the source). -/
inductive Cell where
  | empty
  | black
  | white
  | neutral
deriving DecidableEq, Repr

def EMPTY : Cell := Cell.empty
def BLACK : Cell := Cell.black
def WHITE : Cell := Cell.white

/-- The `'?'` marker written by `Position.score` for dame regions. -/
def NEUTRAL : Cell := Cell.neutral

def swap_colors (color : Cell) : Cell :=
  if color = BLACK then WHITE
  else if color = WHITE then BLACK
  else color

/-- `flatten(c) = N * c[0] + c[1]` (on unbounded integers, as in Python). -/
def flatten (N : Nat) (c : Int × Int) : Int := N * c.1 + c.2

/-- `unflatten(fc) = divmod(fc, N)`. -/
def unflatten (N : Nat) (fc : Nat) : Nat × Nat := (fc / N, fc % N)

/-- `is_on_board(c)`: both coordinates are fixed by `% N` (Python `%` on a
positive modulus is the nonnegative remainder, which `Int.emod` matches). -/
def is_on_board (N : Nat) (c : Int × Int) : Bool :=
  decide (c.1 % (N : Int) = c.1) && decide (c.2 % (N : Int) = c.2)

def get_valid_neighbors (N : Nat) (fc : Nat) : List Nat :=
  let xy := unflatten N fc
  let x : Int := xy.1
  let y : Int := xy.2
  let possible_neighbors : List (Int × Int) :=
    [(x + 1, y), (x - 1, y), (x, y + 1), (x, y - 1)]
  (possible_neighbors.filter (fun c => is_on_board N c)).map
    (fun c => (flatten N c).toNat)

/-- The precomputed neighbor table, indexed by flat coordinates. -/
def NEIGHBORS (N : Nat) : List (List Nat) :=
  (List.range (N ^ 2)).map (get_valid_neighbors N)

/-- Table lookup `NEIGHBORS[fc]`. -/
def nbrs (N : Nat) (fc : Nat) : List Nat := (NEIGHBORS N).getD fc []

/-- One neighbor inspection inside the `find_reached` frontier loop:
same-colored not-yet-seen neighbors are pushed on the frontier,
differently colored neighbors are recorded in `reached`. -/
def floodStep (board : List Cell) (color : Cell) (chain : Finset Nat)
    (st : List Nat × Finset Nat) (fn : Nat) : List Nat × Finset Nat :=
  if board.getD fn EMPTY = color ∧ fn ∉ chain then (fn :: st.1, st.2)
  else if board.getD fn EMPTY ≠ color then (st.1, insert fn st.2)
  else st

/-- The `while frontier:` loop of `find_reached`.  The Python frontier
list (`append`/`pop` both at the tail) is modelled head-first: pushes
cons onto the front and each iteration pops the head, preserving the
LIFO discipline.  `fuel` bounds the number of iterations; the fuel
passed by `find_reached` is proven sufficient below. -/
def flood (N : Nat) (board : List Cell) (color : Cell) :
    Nat → List Nat → Finset Nat → Finset Nat → Finset Nat × Finset Nat
  | 0, _, chain, reached => (chain, reached)
  | _ + 1, [], chain, reached => (chain, reached)
  | fuel + 1, current_fc :: frontier, chain, reached =>
    let chain1 := insert current_fc chain
    let st := (nbrs N current_fc).foldl (floodStep board color chain1) (frontier, reached)
    flood N board color fuel st.1 chain1 st.2

def find_reached (N : Nat) (board : List Cell) (fc : Nat) :
    Finset Nat × Finset Nat :=
  let color := board.getD fc EMPTY
  flood N board color (4 * N ^ 2 + 2) [fc] {fc} ∅

/-- `place_stone`: `board[:fc] + color + board[fc+1:]`. -/
def place_stone (color : Cell) (board : List Cell) (fc : Nat) : List Cell :=
  board.take fc ++ [color] ++ board.drop (fc + 1)

/-- `bulk_place_stones`: write `color` at every coordinate of `stones`. -/
def bulk_place_stones (color : Cell) (board : List Cell) (stones : List Nat) :
    List Cell :=
  stones.foldl (fun b fstone => b.set fstone color) board

/-- Enumerate a set of flat coordinates in ascending order.  Python
iterates sets in an unspecified order; every iteration in this module
either writes one fixed value at each member or only observes the length
and sole member, so a fixed ascending enumeration is observationally
identical. -/
def setToList (N : Nat) (s : Finset Nat) : List Nat :=
  (List.range (N ^ 2)).filter (fun i => decide (i ∈ s))

/-- `maybe_capture_stones`.  The Finset `captured` stands for both the
Python set `chain` and the empty list `[]`. -/
def maybe_capture_stones (N : Nat) (board : List Cell) (fc : Nat) :
    List Cell × Finset Nat :=
  if ¬ ∃ fr ∈ (find_reached N board fc).2, board.getD fr EMPTY = EMPTY then
    (bulk_place_stones EMPTY board (setToList N (find_reached N board fc).1),
     (find_reached N board fc).1)
  else (board, ∅)

/-- `is_koish`: the unique surrounding color of an empty point, if any.
The Python set comprehension over neighbor colors is modelled by `dedup`;
`len(...) == 1` and the sole element survive unchanged. -/
def is_koish (N : Nat) (board : List Cell) (fc : Nat) : Option Cell :=
  if board.getD fc EMPTY ≠ EMPTY then none
  else
    let neighbor_colors := ((nbrs N fc).map (fun fn => board.getD fn EMPTY)).dedup
    if neighbor_colors.length = 1 ∧ ¬ EMPTY ∈ neighbor_colors then
      neighbor_colors.head?
    else none

/-- `find_move`: the first index that is empty in `board1` and occupied in
`board2`.  The source compares against the literal `'.'`, the `EMPTY`
character of `Shared.Consts`. -/
def find_move (board1 board2 : List Cell) : Option Nat :=
  (List.range board1.length).find?
    (fun i => decide (board1.getD i EMPTY = EMPTY ∧ ¬ board2.getD i EMPTY = EMPTY))

/-- `find_ko_from_boards`.  Note the source guard is `if not move:`, which
is also taken when `find_move` returns the flat coordinate `0`. -/
def find_ko_from_boards (N : Nat) (board1 board2 : List Cell) : Option Nat :=
  match find_move board1 board2 with
  | none => none
  | some move =>
    if move = 0 then none
    else
      let captured := (maybe_capture_stones N board1 move).2
      if (is_koish N board1 move).isSome ∧ captured.card = 1 then
        (setToList N captured).head?
      else none

/-- The `Position` namedtuple: an immutable board-plus-ko snapshot. -/
structure Position where
  board : List Cell
  ko : Option Nat
deriving DecidableEq, Repr

def Position.initial_state (N : Nat) : Position :=
  { board := List.replicate (N ^ 2) EMPTY, ko := none }

def Position.set_board (board : List Cell) (ko : Option Nat) : Position :=
  { board := board, ko := ko }

/-- `get_legal_moves`: 1 where empty, with the ko point zeroed.  The source
guard is the truthiness test `if self.ko:`, which is false both for `None`
and for the flat coordinate `0`. -/
def Position.get_legal_moves (p : Position) : List Nat :=
  let board := p.board.map (fun x => if x = EMPTY then 1 else 0)
  match p.ko with
  | some k => if k = 0 then board else board.set k 0
  | none => board

/-- Post-placement own-colored neighbors of `fc`, headed by `fc` itself
(`my_stones.append(fc)` precedes the neighbor loop). -/
def play_my_stones (N : Nat) (new_board : List Cell) (fc : Nat) (color : Cell) :
    List Nat :=
  fc :: (nbrs N fc).filter (fun fn => new_board.getD fn EMPTY = color)

/-- Post-placement opponent-colored neighbors of `fc` (the `elif` branch:
not own-colored, and equal to the opponent color). -/
def play_opp_stones (N : Nat) (new_board : List Cell) (fc : Nat)
    (color opp_color : Cell) : List Nat :=
  (nbrs N fc).filter (fun fn =>
    ¬ new_board.getD fn EMPTY = color ∧ new_board.getD fn EMPTY = opp_color)

/-- The opponent-capture loop of `play_move`: thread the board through
`maybe_capture_stones` and accumulate every captured coordinate
(`opp_captured += list(captured)`; the set is enumerated in ascending order,
observationally equal to Python's unspecified set order). -/
def play_opp_result (N : Nat) (new_board : List Cell) (opp_stones : List Nat) :
    List Cell × List Nat :=
  opp_stones.foldl
    (fun st fs =>
      ((maybe_capture_stones N st.1 fs).1,
       st.2 ++ setToList N (maybe_capture_stones N st.1 fs).2))
    (new_board, [])

/-- `Position.play_move`; `none` models the single `IllegalMove` failure. -/
def Position.play_move (N : Nat) (p : Position) (fc : Nat) (color : Cell) :
    Option Position :=
  if p.ko = some fc ∨ p.board.getD fc EMPTY ≠ EMPTY then none
  else
    let possible_ko_color := is_koish N p.board fc
    let new_board := place_stone color p.board fc
    let opp_color := swap_colors color
    let my_stones := play_my_stones N new_board fc color
    let opp_stones := play_opp_stones N new_board fc color opp_color
    let res := play_opp_result N new_board opp_stones
    let board2 := my_stones.foldl (fun b fs => (maybe_capture_stones N b fs).1) res.1
    let new_ko :=
      if res.2.length = 1 ∧ possible_ko_color = some opp_color then res.2.head?
      else none
    some { board := board2, ko := new_ko }

/-- The `while EMPTY in board:` loop of `Position.score`, with fuel; each
iteration fills one whole empty region with a stone color or with the
neutral marker, so the number of empty cells strictly decreases and the
fuel passed by `score` is always sufficient. -/
def score_go (N : Nat) : Nat → List Cell → Int
  | 0, board => (board.count BLACK : Int) - (board.count WHITE : Int) - 1
  | fuel + 1, board =>
    if EMPTY ∈ board then
      if (find_reached N board (board.indexOf EMPTY)).2 = ∅ then 0
      else
        if ∀ fb ∈ (find_reached N board (board.indexOf EMPTY)).2,
            board.getD fb EMPTY = board.getD
              ((setToList N (find_reached N board (board.indexOf EMPTY)).2).headI)
              EMPTY then
          score_go N fuel (bulk_place_stones
            (board.getD
              ((setToList N (find_reached N board (board.indexOf EMPTY)).2).headI)
              EMPTY)
            board (setToList N (find_reached N board (board.indexOf EMPTY)).1))
        else
          score_go N fuel (bulk_place_stones NEUTRAL board
            (setToList N (find_reached N board (board.indexOf EMPTY)).1))
    else (board.count BLACK : Int) - (board.count WHITE : Int) - 1

/-- `Position.score`: area scoring with a fixed komi of 1. -/
def Position.score (N : Nat) (p : Position) : Int :=
  score_go N (p.board.length + 1) p.board

/-- One flood-fill step of the specification: `b` is an on-board neighbor
of `a` and carries the reference color. -/
def stepRel (N : Nat) (board : List Cell) (color : Cell) (a b : Nat) : Prop :=
  b ∈ nbrs N a ∧ board.getD b EMPTY = color

/-- `x` lies in the connected component of cells of color `board[fc]`
containing `fc`. -/
def reach (N : Nat) (board : List Cell) (fc x : Nat) : Prop :=
  Relation.ReflTransGen (stepRel N board (board.getD fc EMPTY)) fc x

/-- Positions reachable from `initial_state` through successful `play_move`
calls.  The side condition `fc < N ^ 2` reflects that in the source a call
with an out-of-range coordinate raises `IndexError` at `board[fc]` and so
never produces a position. -/
inductive Reachable (N : Nat) : Position → Prop where
  | init : Reachable N (Position.initial_state N)
  | step : ∀ p fc color q, Reachable N p → fc < N ^ 2 →
      Position.play_move N p fc color = some q → Reachable N q

/-! ### Geometry lemmas -/

theorem emod_eq_self_iff (a : Int) (N : Nat) (hN : 0 < N) :
    a % (N : Int) = a ↔ 0 ≤ a ∧ a < N := by
  constructor
  · intro h
    constructor
    · rw [← h]
      exact Int.emod_nonneg a (by exact_mod_cast hN.ne')
    · rw [← h]
      exact Int.emod_lt_of_pos a (by exact_mod_cast hN)
  · intro h
    exact Int.emod_eq_of_lt h.1 h.2

theorem mem_gvn {N fc fn : Nat} (hfc : fc < N ^ 2) :
    fn ∈ get_valid_neighbors N fc ↔
      (fc / N + 1 < N ∧ fn = fc + N) ∨ (1 ≤ fc / N ∧ fn = fc - N) ∨
      (fc % N + 1 < N ∧ fn = fc + 1) ∨ (1 ≤ fc % N ∧ fn = fc - 1) := by
  have hN : 0 < N := by
    rcases Nat.eq_zero_or_pos N with h | h
    · subst h; simp at hfc
    · exact h
  have hgvn : get_valid_neighbors N fc =
      (([(((fc / N : Nat) : Int) + 1, ((fc % N : Nat) : Int)),
         (((fc / N : Nat) : Int) - 1, ((fc % N : Nat) : Int)),
         (((fc / N : Nat) : Int), ((fc % N : Nat) : Int) + 1),
         (((fc / N : Nat) : Int), ((fc % N : Nat) : Int) - 1)] :
        List (Int × Int)).filter (fun c => is_on_board N c)).map
        (fun c => ((N : Int) * c.1 + c.2).toNat) := rfl
  obtain ⟨q, r, hq, hrr, hrlt, hclt, hZ⟩ :
      ∃ q r, fc / N = q ∧ fc % N = r ∧ q < N ∧ r < N ∧ N * q + r = fc := by
    refine ⟨fc / N, fc % N, rfl, rfl, ?_, Nat.mod_lt _ hN, Nat.div_add_mod fc N⟩
    refine (Nat.div_lt_iff_lt_mul hN).mpr ?_
    have h2 : N ^ 2 = N * N := by ring
    omega
  have hZi : (N : Int) * (q : Int) + (r : Int) = (fc : Int) := by exact_mod_cast hZ
  rw [hgvn, hq, hrr]
  simp only [List.mem_map, List.mem_filter, List.mem_cons, List.not_mem_nil, or_false,
    is_on_board, Bool.and_eq_true, decide_eq_true_eq]
  have e1 : (N : Int) * ((q : Int) + 1) + (r : Int) = (fc : Int) + (N : Int) := by
    linear_combination hZi
  have e2 : (N : Int) * ((q : Int) - 1) + (r : Int) = (fc : Int) - (N : Int) := by
    linear_combination hZi
  have e3 : (N : Int) * (q : Int) + ((r : Int) + 1) = (fc : Int) + 1 := by
    linear_combination hZi
  have e4 : (N : Int) * (q : Int) + ((r : Int) - 1) = (fc : Int) - 1 := by
    linear_combination hZi
  constructor
  · rintro ⟨⟨a, b⟩, ⟨hmem, h1, h2⟩, rfl⟩
    rcases hmem with h | h | h | h <;> rw [Prod.mk.injEq] at h <;>
        obtain ⟨rfl, rfl⟩ := h
    · rw [emod_eq_self_iff _ _ hN] at h1
      left
      refine ⟨by omega, ?_⟩
      show ((N : Int) * ((q : Int) + 1) + (r : Int)).toNat = fc + N
      rw [e1]; omega
    · rw [emod_eq_self_iff _ _ hN] at h1
      right; left
      refine ⟨by omega, ?_⟩
      show ((N : Int) * ((q : Int) - 1) + (r : Int)).toNat = fc - N
      rw [e2]; omega
    · rw [emod_eq_self_iff _ _ hN] at h2
      right; right; left
      refine ⟨by omega, ?_⟩
      show ((N : Int) * (q : Int) + ((r : Int) + 1)).toNat = fc + 1
      rw [e3]; omega
    · rw [emod_eq_self_iff _ _ hN] at h2
      right; right; right
      refine ⟨by omega, ?_⟩
      show ((N : Int) * (q : Int) + ((r : Int) - 1)).toNat = fc - 1
      rw [e4]; omega
  · rintro (⟨h, rfl⟩ | ⟨h, rfl⟩ | ⟨h, rfl⟩ | ⟨h, rfl⟩)
    · refine ⟨((q : Int) + 1, (r : Int)), ⟨Or.inl rfl, ?_, ?_⟩, ?_⟩
      · rw [emod_eq_self_iff _ _ hN]; omega
      · rw [emod_eq_self_iff _ _ hN]; omega
      · show ((N : Int) * ((q : Int) + 1) + (r : Int)).toNat = fc + N
        rw [e1]; omega
    · refine ⟨((q : Int) - 1, (r : Int)), ⟨Or.inr (Or.inl rfl), ?_, ?_⟩, ?_⟩
      · rw [emod_eq_self_iff _ _ hN]; omega
      · rw [emod_eq_self_iff _ _ hN]; omega
      · show ((N : Int) * ((q : Int) - 1) + (r : Int)).toNat = fc - N
        rw [e2]; omega
    · refine ⟨((q : Int), (r : Int) + 1), ⟨Or.inr (Or.inr (Or.inl rfl)), ?_, ?_⟩, ?_⟩
      · rw [emod_eq_self_iff _ _ hN]; omega
      · rw [emod_eq_self_iff _ _ hN]; omega
      · show ((N : Int) * (q : Int) + ((r : Int) + 1)).toNat = fc + 1
        rw [e3]; omega
    · refine ⟨((q : Int), (r : Int) - 1), ⟨Or.inr (Or.inr (Or.inr rfl)), ?_, ?_⟩, ?_⟩
      · rw [emod_eq_self_iff _ _ hN]; omega
      · rw [emod_eq_self_iff _ _ hN]; omega
      · show ((N : Int) * (q : Int) + ((r : Int) - 1)).toNat = fc - 1
        rw [e4]; omega

theorem nbrs_eq_gvn {N fc : Nat} (hfc : fc < N ^ 2) :
    nbrs N fc = get_valid_neighbors N fc := by
  unfold nbrs NEIGHBORS
  rw [List.getD_eq_getElem?_getD, List.getElem?_map, List.getElem?_range hfc]
  rfl

theorem nbrs_eq_nil {N fc : Nat} (hfc : N ^ 2 ≤ fc) : nbrs N fc = [] := by
  unfold nbrs NEIGHBORS
  apply List.getD_eq_default
  simpa using hfc

theorem mem_nbrs {N fc fn : Nat} (hfc : fc < N ^ 2) :
    fn ∈ nbrs N fc ↔
      (fc / N + 1 < N ∧ fn = fc + N) ∨ (1 ≤ fc / N ∧ fn = fc - N) ∨
      (fc % N + 1 < N ∧ fn = fc + 1) ∨ (1 ≤ fc % N ∧ fn = fc - 1) := by
  rw [nbrs_eq_gvn hfc]
  exact mem_gvn hfc

theorem nbrs_length_le (N x : Nat) : (nbrs N x).length ≤ 4 := by
  rcases Nat.lt_or_ge x (N ^ 2) with h | h
  · rw [nbrs_eq_gvn h]
    unfold get_valid_neighbors
    rw [List.length_map]
    exact le_trans (List.length_filter_le _ _) (by rfl)
  · rw [nbrs_eq_nil h]
    simp

theorem divmod_abstract {N fc : Nat} (hN : 0 < N) (hfc : fc < N ^ 2) :
    ∃ q r, fc / N = q ∧ fc % N = r ∧ q < N ∧ r < N ∧ N * q + r = fc := by
  refine ⟨fc / N, fc % N, rfl, rfl, ?_, Nat.mod_lt _ hN, Nat.div_add_mod fc N⟩
  refine (Nat.div_lt_iff_lt_mul hN).mpr ?_
  have h2 : N ^ 2 = N * N := by ring
  omega

theorem mem_nbrs_lt {N x fn : Nat} (h : fn ∈ nbrs N x) : fn < N ^ 2 := by
  rcases Nat.lt_or_ge x (N ^ 2) with hx | hx
  · have hN : 0 < N := by
      rcases Nat.eq_zero_or_pos N with h0 | h0
      · subst h0; simp at hx
      · exact h0
    obtain ⟨q, r, hq, hrr, hrlt, hclt, hZ⟩ := divmod_abstract hN hx
    rw [mem_nbrs hx, hq, hrr] at h
    have hsq : N ^ 2 = N * N := by ring
    rcases h with ⟨h1, rfl⟩ | ⟨h1, rfl⟩ | ⟨h1, rfl⟩ | ⟨h1, rfl⟩
    · have e1 : N * (q + 1) = N * q + N := by ring
      have e2 : N * (q + 1) ≤ N * (N - 1) := Nat.mul_le_mul_left _ (by omega)
      have e3 : N * (N - 1) + N = N * N := by
        rw [← Nat.mul_succ]
        congr 1
        omega
      omega
    · omega
    · have e1 : N * (q + 1) = N * q + N := by ring
      have e2 : N * (q + 1) ≤ N * N := Nat.mul_le_mul_left _ (by omega)
      omega
    · omega
  · rw [nbrs_eq_nil hx] at h
    simp at h

theorem mem_nbrs_symm {N x fn : Nat} (h : fn ∈ nbrs N x) : x ∈ nbrs N fn := by
  rcases Nat.lt_or_ge x (N ^ 2) with hx | hx
  swap
  · rw [nbrs_eq_nil hx] at h; simp at h
  have hfn : fn < N ^ 2 := mem_nbrs_lt h
  have hN : 0 < N := by
    rcases Nat.eq_zero_or_pos N with h0 | h0
    · subst h0; simp at hx
    · exact h0
  obtain ⟨q, r, hq, hrr, hrlt, hclt, hZ⟩ := divmod_abstract hN hx
  rw [mem_nbrs hx, hq, hrr] at h
  rw [mem_nbrs hfn]
  rcases h with ⟨h1, rfl⟩ | ⟨h1, rfl⟩ | ⟨h1, rfl⟩ | ⟨h1, rfl⟩
  · -- fn = x + N = N * (q + 1) + r ; x is its down-neighbor
    have e1 : x + N = N * (q + 1) + r := by ring_nf; omega
    have hdiv : (x + N) / N = q + 1 := by
      rw [e1, Nat.mul_add_div hN, Nat.div_eq_of_lt hclt]
    right; left
    constructor
    · omega
    · omega
  · -- fn = x - N = N * (q - 1) + r ; x is its up-neighbor
    obtain ⟨q1, rfl⟩ : ∃ q1, q = q1 + 1 := ⟨q - 1, by omega⟩
    have e1 : N * (q1 + 1) = N * q1 + N := by ring
    have e2 : x - N = N * q1 + r := by omega
    have hdiv : (x - N) / N = q1 := by
      rw [e2, Nat.mul_add_div hN, Nat.div_eq_of_lt hclt]
      omega
    left
    constructor
    · omega
    · omega
  · -- fn = x + 1 = N * q + (r + 1) ; x is its left-neighbor
    have e2 : x + 1 = N * q + (r + 1) := by omega
    have hmod : (x + 1) % N = r + 1 := by
      rw [e2, Nat.mul_add_mod, Nat.mod_eq_of_lt (by omega)]
    right; right; right
    constructor
    · omega
    · omega
  · -- fn = x - 1 = N * q + (r - 1) ; x is its right-neighbor
    obtain ⟨r1, rfl⟩ : ∃ r1, r = r1 + 1 := ⟨r - 1, by omega⟩
    have e2 : x - 1 = N * q + r1 := by omega
    have hmod : (x - 1) % N = r1 := by
      rw [e2, Nat.mul_add_mod, Nat.mod_eq_of_lt (by omega)]
    right; right; left
    constructor
    · omega
    · omega

/-! ### Flood-fill correctness -/

/-- Same-colored neighbors of `x`, as a Finset. -/
def scn (N : Nat) (board : List Cell) (color : Cell) (x : Nat) : Finset Nat :=
  ((nbrs N x).filter (fun fn => decide (board.getD fn EMPTY = color))).toFinset

/-- Differently-colored neighbors of `x`, as a Finset. -/
def dcn (N : Nat) (board : List Cell) (color : Cell) (x : Nat) : Finset Nat :=
  ((nbrs N x).filter (fun fn => decide (¬ board.getD fn EMPTY = color))).toFinset

theorem mem_scn {N : Nat} {board : List Cell} {color : Cell} {x fn : Nat} :
    fn ∈ scn N board color x ↔ fn ∈ nbrs N x ∧ board.getD fn EMPTY = color := by
  simp [scn, List.mem_toFinset, List.mem_filter]

theorem mem_dcn {N : Nat} {board : List Cell} {color : Cell} {x fn : Nat} :
    fn ∈ dcn N board color x ↔ fn ∈ nbrs N x ∧ ¬ board.getD fn EMPTY = color := by
  simp [dcn, List.mem_toFinset, List.mem_filter]

theorem reach_lt {N : Nat} {board : List Cell} {fc x : Nat} (h1 : fc < N ^ 2)
    (h : reach N board fc x) : x < N ^ 2 := by
  induction h with
  | refl => exact h1
  | tail hab hbc ih => exact mem_nbrs_lt hbc.1

theorem reach_color {N : Nat} {board : List Cell} {fc x : Nat}
    (h : reach N board fc x) : board.getD x EMPTY = board.getD fc EMPTY := by
  induction h with
  | refl => rfl
  | tail hab hbc ih => exact hbc.2

/-- One `foldl` pass over a neighbor list: pushed coordinates are the
same-colored unseen ones (in reverse, since pushes cons), recorded
coordinates are the differently-colored ones. -/
theorem floodFold (board : List Cell) (color : Cell) (chain1 : Finset Nat) :
    ∀ (l F0 : List Nat) (R0 : Finset Nat),
      l.foldl (floodStep board color chain1) (F0, R0)
        = ((l.filter (fun fn =>
              decide (board.getD fn EMPTY = color ∧ fn ∉ chain1))).reverse ++ F0,
           R0 ∪ (l.filter (fun fn =>
              decide (¬ board.getD fn EMPTY = color))).toFinset) := by
  intro l
  induction l with
  | nil => intro F0 R0; simp
  | cons a t ih =>
    intro F0 R0
    rw [List.foldl_cons]
    by_cases h1 : board.getD a EMPTY = color ∧ a ∉ chain1
    · have hstep : floodStep board color chain1 (F0, R0) a = (a :: F0, R0) := by
        unfold floodStep
        rw [if_pos h1]
      have hfa := List.filter_cons_of_pos (l := t)
        (p := fun fn => decide (board.getD fn EMPTY = color ∧ fn ∉ chain1))
        (a := a) (decide_eq_true h1)
      have hfb := List.filter_cons_of_neg (l := t)
        (p := fun fn => decide (¬ board.getD fn EMPTY = color))
        (a := a) (fun hc => of_decide_eq_true hc h1.1)
      rw [hstep, ih (a :: F0) R0, hfa, hfb]
      rw [List.reverse_cons, List.append_assoc]
      rfl
    · by_cases h2 : board.getD a EMPTY = color
      · have hstep : floodStep board color chain1 (F0, R0) a = (F0, R0) := by
          unfold floodStep
          rw [if_neg h1, if_neg (not_not_intro h2)]
        have hfa := List.filter_cons_of_neg (l := t)
          (p := fun fn => decide (board.getD fn EMPTY = color ∧ fn ∉ chain1))
          (a := a) (fun hc => h1 (of_decide_eq_true hc))
        have hfb := List.filter_cons_of_neg (l := t)
          (p := fun fn => decide (¬ board.getD fn EMPTY = color))
          (a := a) (fun hc => of_decide_eq_true hc h2)
        rw [hstep, ih F0 R0, hfa, hfb]
      · have hstep : floodStep board color chain1 (F0, R0) a = (F0, insert a R0) := by
          unfold floodStep
          rw [if_neg h1, if_pos h2]
        have hfa := List.filter_cons_of_neg (l := t)
          (p := fun fn => decide (board.getD fn EMPTY = color ∧ fn ∉ chain1))
          (a := a) (fun hc => h1 (of_decide_eq_true hc))
        have hfb := List.filter_cons_of_pos (l := t)
          (p := fun fn => decide (¬ board.getD fn EMPTY = color))
          (a := a) (decide_eq_true h2)
        rw [hstep, ih F0 (insert a R0), hfa, hfb]
        congr 1
        rw [List.toFinset_cons, Finset.insert_union, Finset.union_insert]

/-- Unfolding one iteration of the frontier loop. -/
theorem flood_succ (N : Nat) (board : List Cell) (color : Cell) (fuel current : Nat)
    (rest : List Nat) (chain reached : Finset Nat) :
    flood N board color (fuel + 1) (current :: rest) chain reached
      = flood N board color fuel
          (((nbrs N current).filter (fun fn =>
              decide (board.getD fn EMPTY = color ∧ fn ∉ insert current chain))).reverse ++ rest)
          (insert current chain)
          (reached ∪ ((nbrs N current).filter (fun fn =>
              decide (¬ board.getD fn EMPTY = color))).toFinset) := by
  show flood N board color fuel
      ((nbrs N current).foldl (floodStep board color (insert current chain)) (rest, reached)).1
      (insert current chain)
      ((nbrs N current).foldl (floodStep board color (insert current chain)) (rest, reached)).2
    = _
  rw [floodFold]

/-- When the frontier has emptied, the invariants pin the state down:
the chain is the connected component and the reached set its
differently-colored boundary. -/
theorem flood_invClose (N : Nat) (board : List Cell) (fc : Nat)
    (processed chain reached : Finset Nat)
    (hfc : fc ∈ chain)
    (hpc : processed ⊆ chain)
    (hcp : ∀ x ∈ chain, x ∈ processed)
    (hcr : ∀ x ∈ chain, reach N board fc x)
    (hcl : ∀ x ∈ processed, ∀ fn ∈ scn N board (board.getD fc EMPTY) x, fn ∈ chain)
    (hre : reached = processed.biUnion (dcn N board (board.getD fc EMPTY))) :
    ∀ y, (y ∈ chain ↔ reach N board fc y) ∧
      (y ∈ reached ↔ ∃ z, reach N board fc z ∧ y ∈ nbrs N z ∧
        ¬ board.getD y EMPTY = board.getD fc EMPTY) := by
  have hchain : ∀ y, y ∈ chain ↔ reach N board fc y := by
    intro y
    constructor
    · exact hcr y
    · intro hr
      induction hr with
      | refl => exact hfc
      | tail hab hbc ih =>
        refine hcl _ (hcp _ ih) _ ?_
        rw [mem_scn]
        exact ⟨hbc.1, hbc.2⟩
  intro y
  refine ⟨hchain y, ?_⟩
  subst hre
  rw [Finset.mem_biUnion]
  constructor
  · rintro ⟨z, hz, hd⟩
    rw [mem_dcn] at hd
    exact ⟨z, hcr z (hpc hz), hd.1, hd.2⟩
  · rintro ⟨z, hz, hn, hne⟩
    refine ⟨z, hcp z ((hchain z).mpr hz), ?_⟩
    rw [mem_dcn]
    exact ⟨hn, hne⟩

open scoped Classical in
/-- Invariant induction over the frontier loop: starting from a state
satisfying the loop invariants with enough fuel, the loop computes the
connected component of `fc` and its differently-colored boundary. -/
theorem flood_go (N : Nat) (board : List Cell) (fc : Nat) (h1 : fc < N ^ 2) :
    ∀ (fuel : Nat) (processed chain reached : Finset Nat) (F : List Nat),
      fc ∈ chain →
      processed ⊆ chain →
      (∀ x ∈ chain, x ∈ processed ∨ x ∈ F) →
      (∀ x ∈ chain, reach N board fc x) →
      (∀ x ∈ F, reach N board fc x) →
      (∀ x ∈ processed, ∀ fn ∈ scn N board (board.getD fc EMPTY) x,
        fn ∈ chain ∨ fn ∈ F) →
      reached = processed.biUnion (dcn N board (board.getD fc EMPTY)) →
      (∀ pre x post, F = pre ++ x :: post → x ∈ processed →
        ∀ fn ∈ scn N board (board.getD fc EMPTY) x, fn ∈ chain ∨ fn ∈ pre) →
      F.length + 4 * (((Finset.range (N ^ 2)).filter
          (fun z => reach N board fc z)) \ processed).card ≤ fuel →
      ∀ y, (y ∈ (flood N board (board.getD fc EMPTY) fuel F chain reached).1
              ↔ reach N board fc y) ∧
        (y ∈ (flood N board (board.getD fc EMPTY) fuel F chain reached).2 ↔
          ∃ z, reach N board fc z ∧ y ∈ nbrs N z ∧
            ¬ board.getD y EMPTY = board.getD fc EMPTY) := by
  intro fuel
  induction fuel with
  | zero =>
    intro processed chain reached F hfc hpc hcpf hcr hFr hcl hre hstack hfuel
    have hF : F = [] := List.eq_nil_of_length_eq_zero (by omega)
    subst hF
    exact flood_invClose N board fc processed chain reached hfc hpc
      (fun x hx => (hcpf x hx).resolve_right (by simp))
      hcr
      (fun x hx fn hfn => (hcl x hx fn hfn).resolve_right (by simp))
      hre
  | succ fuel ih =>
    intro processed chain reached F hfc hpc hcpf hcr hFr hcl hre hstack hfuel
    cases F with
    | nil =>
      exact flood_invClose N board fc processed chain reached hfc hpc
        (fun x hx => (hcpf x hx).resolve_right (by simp))
        hcr
        (fun x hx fn hfn => (hcl x hx fn hfn).resolve_right (by simp))
        hre
    | cons current rest =>
      rw [flood_succ]
      have hcur_reach : reach N board fc current := hFr current (by simp)
      by_cases hcurp : current ∈ processed
      · -- a re-popped coordinate: the stack invariant forbids new pushes
        have hscn_sub : ∀ fn ∈ scn N board (board.getD fc EMPTY) current,
            fn ∈ chain :=
          fun fn hfn =>
            (hstack [] current rest rfl hcurp fn hfn).resolve_right (by simp)
        have hchain1 : insert current chain = chain :=
          Finset.insert_eq_self.mpr (hpc hcurp)
        have hP : ((nbrs N current).filter (fun fn =>
            decide (board.getD fn EMPTY = board.getD fc EMPTY ∧
              fn ∉ insert current chain))) = [] := by
          rw [List.filter_eq_nil_iff]
          intro fn hfn hdec
          have hc := of_decide_eq_true hdec
          exact hc.2 (by
            rw [hchain1]
            exact hscn_sub fn (mem_scn.mpr ⟨hfn, hc.1⟩))
        have hQ : reached ∪ ((nbrs N current).filter (fun fn =>
            decide (¬ board.getD fn EMPTY = board.getD fc EMPTY))).toFinset
            = reached := by
          rw [hre]
          apply Finset.union_eq_left.mpr
          intro z hz
          rw [Finset.mem_biUnion]
          exact ⟨current, hcurp, hz⟩
        rw [hP, hchain1, hQ]
        simp only [List.reverse_nil, List.nil_append]
        refine ih processed chain reached rest hfc hpc ?_ hcr ?_ ?_ hre ?_ ?_
        · intro x hx
          rcases hcpf x hx with h | h
          · exact Or.inl h
          · rcases List.mem_cons.mp h with rfl | h2
            · exact Or.inl hcurp
            · exact Or.inr h2
        · exact fun x hx => hFr x (List.mem_cons_of_mem _ hx)
        · intro x hx fn hfn
          rcases hcl x hx fn hfn with h | h
          · exact Or.inl h
          · rcases List.mem_cons.mp h with rfl | h2
            · exact Or.inl (hpc hcurp)
            · exact Or.inr h2
        · intro pre x post hdec hxp fn hfn
          have hF : current :: rest = (current :: pre) ++ x :: post := by
            rw [hdec]; rfl
          rcases hstack (current :: pre) x post hF hxp fn hfn with h | h
          · exact Or.inl h
          · rcases List.mem_cons.mp h with rfl | h2
            · exact Or.inl (hpc hcurp)
            · exact Or.inr h2
        · have hlen : (current :: rest).length = rest.length + 1 := by simp
          omega
      · -- a fresh coordinate: it joins the chain and processed set
        have hcur_lt : current < N ^ 2 := reach_lt h1 hcur_reach
        have hPsub : ∀ fn ∈ ((nbrs N current).filter (fun fn =>
            decide (board.getD fn EMPTY = board.getD fc EMPTY ∧
              fn ∉ insert current chain))), fn ∈ nbrs N current ∧
              board.getD fn EMPTY = board.getD fc EMPTY ∧
              fn ∉ insert current chain := by
          intro fn hfn
          rcases List.mem_filter.mp hfn with ⟨hmem, hdec⟩
          have hc := of_decide_eq_true hdec
          exact ⟨hmem, hc.1, hc.2⟩
        refine ih (insert current processed) (insert current chain)
          (reached ∪ ((nbrs N current).filter (fun fn =>
            decide (¬ board.getD fn EMPTY = board.getD fc EMPTY))).toFinset)
          (((nbrs N current).filter (fun fn =>
            decide (board.getD fn EMPTY = board.getD fc EMPTY ∧
              fn ∉ insert current chain))).reverse ++ rest)
          (Finset.mem_insert_of_mem hfc)
          (Finset.insert_subset_insert _ hpc)
          ?_ ?_ ?_ ?_ ?_ ?_ ?_
        · -- chain covered by processed and frontier
          intro x hx
          rcases Finset.mem_insert.mp hx with rfl | hx2
          · exact Or.inl (Finset.mem_insert_self _ _)
          · rcases hcpf x hx2 with h | h
            · exact Or.inl (Finset.mem_insert_of_mem h)
            · rcases List.mem_cons.mp h with rfl | h2
              · exact Or.inl (Finset.mem_insert_self _ _)
              · exact Or.inr (List.mem_append_right _ h2)
        · -- chain reaches
          intro x hx
          rcases Finset.mem_insert.mp hx with rfl | hx2
          · exact hcur_reach
          · exact hcr x hx2
        · -- frontier reaches
          intro x hx
          rcases List.mem_append.mp hx with h | h
          · rw [List.mem_reverse] at h
            obtain ⟨hmem, hcol, _⟩ := hPsub x h
            exact Relation.ReflTransGen.tail hcur_reach ⟨hmem, hcol⟩
          · exact hFr x (List.mem_cons_of_mem _ h)
        · -- closure for processed coordinates
          intro x hx fn hfn
          rcases Finset.mem_insert.mp hx with rfl | hx2
          · by_cases hch : fn ∈ insert x chain
            · exact Or.inl hch
            · refine Or.inr (List.mem_append_left _ ?_)
              rw [List.mem_reverse]
              rcases mem_scn.mp hfn with ⟨hmem, hcol⟩
              exact List.mem_filter.mpr ⟨hmem, decide_eq_true ⟨hcol, hch⟩⟩
          · rcases hcl x hx2 fn hfn with h | h
            · exact Or.inl (Finset.mem_insert_of_mem h)
            · rcases List.mem_cons.mp h with rfl | h2
              · exact Or.inl (Finset.mem_insert_self _ _)
              · exact Or.inr (List.mem_append_right _ h2)
        · -- reached set characterization
          rw [hre, Finset.biUnion_insert, Finset.union_comm]
          rfl
        · -- the stack invariant
          intro pre x post hdec hxmem fn hfn
          rcases List.append_eq_append_iff.mp hdec with ⟨a2, hpre, hrest⟩ |
            ⟨c2, hPrev, hxpost⟩
          · rcases Finset.mem_insert.mp hxmem with rfl | hxp
            · by_cases hch : fn ∈ insert x chain
              · exact Or.inl hch
              · refine Or.inr ?_
                rw [hpre]
                refine List.mem_append_left _ ?_
                rw [List.mem_reverse]
                rcases mem_scn.mp hfn with ⟨hmem, hcol⟩
                exact List.mem_filter.mpr ⟨hmem, decide_eq_true ⟨hcol, hch⟩⟩
            · have hF : current :: rest = (current :: a2) ++ x :: post := by
                rw [hrest]; rfl
              rcases hstack (current :: a2) x post hF hxp fn hfn with h | h
              · exact Or.inl (Finset.mem_insert_of_mem h)
              · rcases List.mem_cons.mp h with rfl | h2
                · exact Or.inl (Finset.mem_insert_self _ _)
                · exact Or.inr (by rw [hpre]; exact List.mem_append_right _ h2)
          · cases c2 with
            | nil =>
              rw [List.nil_append] at hxpost
              rw [List.append_nil] at hPrev
              rcases Finset.mem_insert.mp hxmem with rfl | hxp
              · by_cases hch : fn ∈ insert x chain
                · exact Or.inl hch
                · refine Or.inr ?_
                  rw [← hPrev, List.mem_reverse]
                  rcases mem_scn.mp hfn with ⟨hmem, hcol⟩
                  exact List.mem_filter.mpr ⟨hmem, decide_eq_true ⟨hcol, hch⟩⟩
              · have hF : current :: rest = [current] ++ x :: post := by
                  rw [← hxpost]; rfl
                rcases hstack [current] x post hF hxp fn hfn with h | h
                · exact Or.inl (Finset.mem_insert_of_mem h)
                · rcases List.mem_cons.mp h with rfl | h2
                  · exact Or.inl (Finset.mem_insert_self _ _)
                  · simp at h2
            | cons x2 c2t =>
              have hx2 : x = x2 := (List.cons_eq_cons.mp hxpost).1
              subst hx2
              have hxP : x ∈ ((nbrs N current).filter (fun fn =>
                  decide (board.getD fn EMPTY = board.getD fc EMPTY ∧
                    fn ∉ insert current chain))).reverse := by
                rw [hPrev]
                exact List.mem_append_right _ (by simp)
              rw [List.mem_reverse] at hxP
              obtain ⟨_, _, hnotch⟩ := hPsub x hxP
              exfalso
              rcases Finset.mem_insert.mp hxmem with rfl | hxp
              · exact hnotch (Finset.mem_insert_self _ _)
              · exact hnotch (Finset.mem_insert_of_mem (hpc hxp))
        · -- fuel bound
          have hPlen : ((nbrs N current).filter (fun fn =>
              decide (board.getD fn EMPTY = board.getD fc EMPTY ∧
                fn ∉ insert current chain))).length ≤ 4 :=
            le_trans (List.length_filter_le _ _) (nbrs_length_le N current)
          have hcur_Rfin : current ∈ (Finset.range (N ^ 2)).filter
              (fun z => reach N board fc z) :=
            Finset.mem_filter.mpr ⟨Finset.mem_range.mpr hcur_lt, hcur_reach⟩
          have hmem_sd : current ∈ ((Finset.range (N ^ 2)).filter
              (fun z => reach N board fc z)) \ processed :=
            Finset.mem_sdiff.mpr ⟨hcur_Rfin, hcurp⟩
          have hsd : ((Finset.range (N ^ 2)).filter
                (fun z => reach N board fc z)) \ insert current processed
              = (((Finset.range (N ^ 2)).filter
                (fun z => reach N board fc z)) \ processed).erase current := by
            ext z
            simp only [Finset.mem_sdiff, Finset.mem_erase, Finset.mem_insert]
            tauto
          have hcard : (((Finset.range (N ^ 2)).filter
                (fun z => reach N board fc z)) \ insert current processed).card
              = (((Finset.range (N ^ 2)).filter
                (fun z => reach N board fc z)) \ processed).card - 1 := by
            rw [hsd]
            exact Finset.card_erase_of_mem hmem_sd
          have hcard1 : 1 ≤ (((Finset.range (N ^ 2)).filter
              (fun z => reach N board fc z)) \ processed).card :=
            Finset.card_pos.mpr ⟨current, hmem_sd⟩
          have hlenF : (current :: rest).length = rest.length + 1 := by simp
          rw [List.length_append, List.length_reverse, hcard]
          omega

open scoped Classical in
/-- Correctness of `find_reached`: the returned `chain` is exactly the
connected same-color component of `fc`, and `reached` is exactly the set
of differently-colored points adjacent to it. -/
theorem find_reached_spec (N : Nat) (board : List Cell) (fc : Nat) (h1 : fc < N ^ 2) :
    ∀ y, (y ∈ (find_reached N board fc).1 ↔ reach N board fc y) ∧
      (y ∈ (find_reached N board fc).2 ↔ ∃ z, reach N board fc z ∧ y ∈ nbrs N z ∧
        ¬ board.getD y EMPTY = board.getD fc EMPTY) := by
  refine flood_go N board fc h1 (4 * N ^ 2 + 2) ∅ {fc} ∅ [fc]
    (Finset.mem_singleton_self fc) (Finset.empty_subset _)
    ?_ ?_ ?_ ?_ ?_ ?_ ?_
  · intro x hx
    rw [Finset.mem_singleton] at hx
    subst hx
    exact Or.inr (by simp)
  · intro x hx
    rw [Finset.mem_singleton] at hx
    subst hx
    exact Relation.ReflTransGen.refl
  · intro x hx
    simp only [List.mem_singleton] at hx
    subst hx
    exact Relation.ReflTransGen.refl
  · intro x hx
    simp at hx
  · simp
  · intro pre x post hdec hxp
    simp at hxp
  · have hle : ((Finset.range (N ^ 2)).filter (fun z => reach N board fc z)).card
        ≤ N ^ 2 := le_trans (Finset.card_filter_le _ _) (le_of_eq (Finset.card_range _))
    rw [Finset.sdiff_empty]
    simp only [List.length_singleton]
    omega

theorem flood_chain_mono (N : Nat) (board : List Cell) (color : Cell) :
    ∀ (fuel : Nat) (F : List Nat) (chain reached : Finset Nat),
      chain ⊆ (flood N board color fuel F chain reached).1 := by
  intro fuel
  induction fuel with
  | zero => intro F chain reached; exact subset_rfl
  | succ fuel ih =>
    intro F chain reached
    cases F with
    | nil => exact subset_rfl
    | cons current rest =>
      rw [flood_succ]
      exact subset_trans (Finset.subset_insert _ _) (ih _ _ _)

/-- `fc` always belongs to its own chain, with no range assumption. -/
theorem mem_chain_self (N : Nat) (board : List Cell) (fc : Nat) :
    fc ∈ (find_reached N board fc).1 :=
  flood_chain_mono N board _ _ [fc] {fc} ∅ (Finset.mem_singleton_self fc)

theorem reach_symm {N : Nat} {board : List Cell} {fc x : Nat}
    (h : reach N board fc x) :
    Relation.ReflTransGen (stepRel N board (board.getD fc EMPTY)) x fc := by
  induction h with
  | refl => exact Relation.ReflTransGen.refl
  | tail hab hbc ih =>
    refine Relation.ReflTransGen.head ?_ ih
    refine ⟨mem_nbrs_symm hbc.1, ?_⟩
    exact reach_color hab

/-- Region points see the same component: if `x` lies in the component of
`fc`, the component of `x` coincides with it. -/
theorem reach_of_reach_mem {N : Nat} {board : List Cell} {fc x y : Nat}
    (hx : reach N board fc x) : reach N board x y ↔ reach N board fc y := by
  have hcol : board.getD x EMPTY = board.getD fc EMPTY := reach_color hx
  unfold reach
  rw [hcol]
  constructor
  · intro h
    exact Relation.ReflTransGen.trans hx h
  · intro h
    exact Relation.ReflTransGen.trans (reach_symm hx) h

/-! ### List update lemmas -/

theorem getD_set (v : Cell) :
    ∀ (l : List Cell) (i j : Nat),
      (l.set i v).getD j EMPTY = if i = j ∧ i < l.length then v else l.getD j EMPTY := by
  intro l
  induction l with
  | nil =>
    intro i j
    simp
  | cons a t ih =>
    intro i j
    cases i with
    | zero =>
      cases j with
      | zero => simp
      | succ j2 => simp
    | succ i2 =>
      cases j with
      | zero => simp
      | succ j2 =>
        show ((a :: t.set i2 v).getD (j2 + 1) EMPTY) = _
        rw [List.getD_cons_succ, List.getD_cons_succ, ih i2 j2]
        by_cases h : i2 = j2 ∧ i2 < t.length
        · rw [if_pos h, if_pos ⟨by omega, by simp; omega⟩]
        · rw [if_neg h, if_neg (by simp; omega)]

theorem set_getD_self :
    ∀ (l : List Cell) (i : Nat) (c : Cell), l.getD i EMPTY = c → l.set i c = l := by
  intro l
  induction l with
  | nil => intro i c h; rfl
  | cons a t ih =>
    intro i c h
    cases i with
    | zero =>
      rw [List.getD_cons_zero] at h
      subst h
      rfl
    | succ i2 =>
      rw [List.getD_cons_succ] at h
      show a :: t.set i2 c = a :: t
      rw [ih i2 c h]

theorem bulk_place_length (c : Cell) :
    ∀ (stones : List Nat) (b : List Cell),
      (bulk_place_stones c b stones).length = b.length := by
  intro stones
  induction stones with
  | nil => intro b; rfl
  | cons a t ih =>
    intro b
    show (bulk_place_stones c (b.set a c) t).length = b.length
    rw [ih, List.length_set]

theorem bulk_place_getD (c : Cell) :
    ∀ (stones : List Nat) (b : List Cell) (j : Nat),
      (bulk_place_stones c b stones).getD j EMPTY
        = if j ∈ stones ∧ j < b.length then c else b.getD j EMPTY := by
  intro stones
  induction stones with
  | nil =>
    intro b j
    simp [bulk_place_stones]
  | cons a t ih =>
    intro b j
    show (bulk_place_stones c (b.set a c) t).getD j EMPTY = _
    rw [ih, List.length_set]
    by_cases h1 : j ∈ t ∧ j < b.length
    · rw [if_pos h1, if_pos ⟨List.mem_cons_of_mem _ h1.1, h1.2⟩]
    · rw [if_neg h1, getD_set]
      by_cases h2 : a = j ∧ a < b.length
      · rw [if_pos h2, if_pos ⟨by rw [← h2.1]; exact List.mem_cons_self a t, by omega⟩]
      · rw [if_neg h2, if_neg (by
          rintro ⟨hm, hlen⟩
          rcases List.mem_cons.mp hm with rfl | hmt
          · exact h2 ⟨rfl, hlen⟩
          · exact h1 ⟨hmt, hlen⟩)]

theorem bulk_place_id (c : Cell) :
    ∀ (stones : List Nat) (b : List Cell),
      (∀ fs ∈ stones, b.getD fs EMPTY = c) → bulk_place_stones c b stones = b := by
  intro stones
  induction stones with
  | nil => intro b _; rfl
  | cons a t ih =>
    intro b h
    show bulk_place_stones c (b.set a c) t = b
    rw [set_getD_self b a c (h a (List.mem_cons_self a t))]
    exact ih b (fun fs hfs => h fs (List.mem_cons_of_mem _ hfs))

theorem place_stone_eq_set (c : Cell) (b : List Cell) (fc : Nat) (h : fc < b.length) :
    place_stone c b fc = b.set fc c := by
  unfold place_stone
  rw [List.set_eq_take_cons_drop c h]
  simp

theorem place_stone_length (c : Cell) (b : List Cell) (fc : Nat) (h : fc < b.length) :
    (place_stone c b fc).length = b.length := by
  rw [place_stone_eq_set c b fc h, List.length_set]

theorem place_stone_getD (c : Cell) (b : List Cell) (fc : Nat) (h : fc < b.length)
    (j : Nat) :
    (place_stone c b fc).getD j EMPTY = if fc = j then c else b.getD j EMPTY := by
  rw [place_stone_eq_set c b fc h, getD_set]
  by_cases hj : fc = j
  · rw [if_pos ⟨hj, h⟩, if_pos hj]
  · rw [if_neg (by tauto), if_neg hj]

/-! ### setToList lemmas -/

theorem mem_setToList {N : Nat} {s : Finset Nat} {j : Nat} :
    j ∈ setToList N s ↔ j < N ^ 2 ∧ j ∈ s := by
  simp [setToList, List.mem_filter, List.mem_range]

theorem setToList_eq_nil {N : Nat} {s : Finset Nat}
    (hlt : ∀ y ∈ s, y < N ^ 2) (h : setToList N s = []) : s = ∅ := by
  apply Finset.eq_empty_of_forall_not_mem
  intro y hy
  have : y ∈ setToList N s := mem_setToList.mpr ⟨hlt y hy, hy⟩
  rw [h] at this
  exact List.not_mem_nil y this

theorem setToList_headI_mem {N : Nat} {s : Finset Nat}
    (hlt : ∀ y ∈ s, y < N ^ 2) (hne : s ≠ ∅) :
    (setToList N s).headI ∈ s := by
  cases hl : setToList N s with
  | nil => exact absurd (setToList_eq_nil hlt hl) hne
  | cons a t =>
    rw [List.headI_cons]
    exact (mem_setToList.mp (hl ▸ List.mem_cons_self a t)).2

theorem setToList_singleton {N fc : Nat} (h : fc < N ^ 2) :
    setToList N ({fc} : Finset Nat) = [fc] := by
  unfold setToList
  have key : ∀ n, fc < n →
      (List.range n).filter (fun i => decide (i ∈ ({fc} : Finset Nat))) = [fc] := by
    intro n
    induction n with
    | zero => intro h0; omega
    | succ m ih =>
      intro hlt
      rw [List.range_succ, List.filter_append]
      by_cases hfc : fc < m
      · rw [ih hfc]
        have : ¬ (m ∈ ({fc} : Finset Nat)) := by
          rw [Finset.mem_singleton]; omega
        simp [this]
        omega
      · have hm : fc = m := by omega
        have h1 : (List.range m).filter
            (fun i => decide (i ∈ ({fc} : Finset Nat))) = [] := by
          apply List.filter_eq_nil_iff.mpr
          intro a ha
          have : a < m := List.mem_range.mp ha
          simp [Finset.mem_singleton]
          omega
        have h2 : (m ∈ ({fc} : Finset Nat)) := by
          rw [Finset.mem_singleton]; omega
        simp [h1, h2, hm]
        intro a ha
        omega
  exact key (N ^ 2) h

/-! ### Capture lemmas -/

theorem mc_length (N : Nat) (b : List Cell) (fs : Nat) :
    (maybe_capture_stones N b fs).1.length = b.length := by
  unfold maybe_capture_stones
  split
  · exact bulk_place_length _ _ _
  · rfl

theorem mc_not_captured (N : Nat) (b : List Cell) (fs : Nat)
    (h : (maybe_capture_stones N b fs).2 = ∅) :
    (maybe_capture_stones N b fs).1 = b := by
  unfold maybe_capture_stones at h ⊢
  by_cases hcond : ¬ ∃ fr ∈ (find_reached N b fs).2, b.getD fr EMPTY = EMPTY
  · rw [if_pos hcond] at h
    exfalso
    have hm := mem_chain_self N b fs
    rw [show (find_reached N b fs).1 = (∅ : Finset Nat) from h] at hm
    exact Finset.not_mem_empty fs hm
  · rw [if_neg hcond]

/-- If the enumeration of the captured set is empty, the board came
through `maybe_capture_stones` unchanged (either no capture fired, or the
bulk write iterated over an empty enumeration). -/
theorem mc_enum_nil (N : Nat) (b : List Cell) (fs : Nat)
    (h : setToList N (maybe_capture_stones N b fs).2 = []) :
    (maybe_capture_stones N b fs).1 = b := by
  unfold maybe_capture_stones at h ⊢
  by_cases hcond : ¬ ∃ fr ∈ (find_reached N b fs).2, b.getD fr EMPTY = EMPTY
  · rw [if_pos hcond] at h ⊢
    have h2 : setToList N (find_reached N b fs).1 = [] := h
    show bulk_place_stones EMPTY b (setToList N (find_reached N b fs).1) = b
    rw [h2]
    rfl
  · rw [if_neg hcond]

/-- On an empty point the chain is the empty region itself: no boundary
point is empty (every reached point differs from the Empty color), so the
"capture" fires, the whole empty region is returned as captured, and
rewriting empties with Empty leaves the board unchanged. -/
theorem mc_empty_cell (N : Nat) (b : List Cell) (fs : Nat) (h1 : fs < N ^ 2)
    (hc : b.getD fs EMPTY = EMPTY) :
    maybe_capture_stones N b fs = (b, (find_reached N b fs).1) := by
  unfold maybe_capture_stones
  have hcond : ¬ ∃ fr ∈ (find_reached N b fs).2, b.getD fr EMPTY = EMPTY := by
    rintro ⟨fr, hfr, hfr2⟩
    obtain ⟨z, _, _, hne⟩ := ((find_reached_spec N b fs h1 fr).2).mp hfr
    rw [hc] at hne
    exact hne hfr2
  rw [if_pos hcond]
  congr 1
  apply bulk_place_id
  intro x hx
  have hx2 := (mem_setToList.mp hx).2
  rw [reach_color (((find_reached_spec N b fs h1 x).1).mp hx2), hc]

/-! ### play_move structure lemmas -/

theorem play_move_none_iff (N : Nat) (p : Position) (fc : Nat) (color : Cell) :
    Position.play_move N p fc color = none ↔
      (p.ko = some fc ∨ p.board.getD fc EMPTY ≠ EMPTY) := by
  unfold Position.play_move
  by_cases h : p.ko = some fc ∨ p.board.getD fc EMPTY ≠ EMPTY
  · rw [if_pos h]
    exact iff_of_true rfl h
  · rw [if_neg h]
    exact iff_of_false (fun hx => Option.noConfusion hx) h

theorem play_move_eq_some (N : Nat) (p : Position) (fc : Nat) (color : Cell)
    (h : ¬ (p.ko = some fc ∨ p.board.getD fc EMPTY ≠ EMPTY)) :
    Position.play_move N p fc color = some
      { board := (play_my_stones N (place_stone color p.board fc) fc color).foldl
          (fun b fs => (maybe_capture_stones N b fs).1)
          (play_opp_result N (place_stone color p.board fc)
            (play_opp_stones N (place_stone color p.board fc) fc color
              (swap_colors color))).1,
        ko := if (play_opp_result N (place_stone color p.board fc)
              (play_opp_stones N (place_stone color p.board fc) fc color
                (swap_colors color))).2.length = 1
            ∧ is_koish N p.board fc = some (swap_colors color)
          then (play_opp_result N (place_stone color p.board fc)
              (play_opp_stones N (place_stone color p.board fc) fc color
                (swap_colors color))).2.head?
          else none } := by
  unfold Position.play_move
  rw [if_neg h]

theorem play_opp_foldl_length (N : Nat) :
    ∀ (l : List Nat) (st : List Cell × List Nat),
      (l.foldl (fun st fs =>
        ((maybe_capture_stones N st.1 fs).1,
         st.2 ++ setToList N (maybe_capture_stones N st.1 fs).2)) st).1.length
        = st.1.length := by
  intro l
  induction l with
  | nil => intro st; rfl
  | cons fs t ih =>
    intro st
    rw [List.foldl_cons, ih]
    exact mc_length N st.1 fs

theorem play_opp_result_length (N : Nat) (b : List Cell) (l : List Nat) :
    (play_opp_result N b l).1.length = b.length :=
  play_opp_foldl_length N l (b, [])

/-- The opponent loop appends onto its accumulator; if it captured
nothing, the board comes through unchanged. -/
theorem play_opp_foldl_acc (N : Nat) :
    ∀ (l : List Nat) (b : List Cell) (acc : List Nat),
      ∃ extra,
        (l.foldl (fun st fs =>
          ((maybe_capture_stones N st.1 fs).1,
           st.2 ++ setToList N (maybe_capture_stones N st.1 fs).2)) (b, acc)).2
          = acc ++ extra ∧
        (extra = [] →
          (l.foldl (fun st fs =>
            ((maybe_capture_stones N st.1 fs).1,
             st.2 ++ setToList N (maybe_capture_stones N st.1 fs).2)) (b, acc)).1
            = b) := by
  intro l
  induction l with
  | nil =>
    intro b acc
    exact ⟨[], by simp, fun _ => rfl⟩
  | cons fs t ih =>
    intro b acc
    rw [List.foldl_cons]
    obtain ⟨extra, hacc, hboard⟩ :=
      ih (maybe_capture_stones N b fs).1
        (acc ++ setToList N (maybe_capture_stones N b fs).2)
    refine ⟨setToList N (maybe_capture_stones N b fs).2 ++ extra, ?_, ?_⟩
    · rw [hacc, List.append_assoc]
    · intro hnil
      rcases List.append_eq_nil.mp hnil with ⟨hsort, hextra⟩
      have hb : (maybe_capture_stones N b fs).1 = b := mc_enum_nil N b fs hsort
      rw [hb] at hboard ⊢
      exact hboard hextra

theorem play_my_foldl_length (N : Nat) :
    ∀ (l : List Nat) (b : List Cell),
      (l.foldl (fun b fs => (maybe_capture_stones N b fs).1) b).length = b.length := by
  intro l
  induction l with
  | nil => intro b; rfl
  | cons fs t ih =>
    intro b
    rw [List.foldl_cons, ih]
    exact mc_length N b fs

theorem play_move_board_length (N : Nat) (p : Position) (fc : Nat) (color : Cell)
    (q : Position) (hfc : fc < N ^ 2) (hlen : p.board.length = N ^ 2)
    (h : Position.play_move N p fc color = some q) : q.board.length = N ^ 2 := by
  by_cases hcond : p.ko = some fc ∨ p.board.getD fc EMPTY ≠ EMPTY
  · rw [(play_move_none_iff N p fc color).mpr hcond] at h
    exact Option.noConfusion h
  · rw [play_move_eq_some N p fc color hcond] at h
    have hq := Option.some.inj h
    subst hq
    show ((play_my_stones N (place_stone color p.board fc) fc color).foldl
        (fun b fs => (maybe_capture_stones N b fs).1) _).length = N ^ 2
    rw [play_my_foldl_length, play_opp_result_length,
      place_stone_length color p.board fc (by omega), hlen]

/-! ### Scoring: spec-side definitions and helpers -/

/-- `y` is a boundary point of the region of `x`: adjacent to the region
and of a different color. -/
def regionBorder (N : Nat) (b : List Cell) (x y : Nat) : Prop :=
  ∃ z, reach N b x z ∧ y ∈ nbrs N z ∧ ¬ b.getD y EMPTY = b.getD x EMPTY

/-- `x` is a territory point of color `c`: an empty point whose region
boundary is nonempty and entirely of color `c`. -/
def isTerritoryOf (N : Nat) (b : List Cell) (c : Cell) (x : Nat) : Prop :=
  b.getD x EMPTY = EMPTY ∧ (∃ y, regionBorder N b x y) ∧
    (∀ y, regionBorder N b x y → b.getD y EMPTY = c)

/-- `x` counts for color `c` in the final area score: it carries a stone
of color `c`, or it is territory of `c`. -/
def scorePoint (N : Nat) (b : List Cell) (c : Cell) (x : Nat) : Prop :=
  b.getD x EMPTY = c ∨ isTerritoryOf N b c x

theorem count_eq_card (c : Cell) (l : List Cell) :
    l.count c = ((Finset.range l.length).filter (fun i => l.getD i EMPTY = c)).card := by
  induction l using List.reverseRecOn with
  | nil => simp
  | append_singleton t a ih =>
    rw [List.count_append, List.length_append]
    simp only [List.length_singleton]
    rw [Finset.range_succ, Finset.filter_insert]
    have hagree : ∀ i ∈ Finset.range t.length,
        ((t ++ [a]).getD i EMPTY = c ↔ t.getD i EMPTY = c) := by
      intro i hi
      rw [Finset.mem_range] at hi
      rw [List.getD_append _ _ _ _ hi]
    have hfe : (Finset.range t.length).filter (fun i => (t ++ [a]).getD i EMPTY = c)
        = (Finset.range t.length).filter (fun i => t.getD i EMPTY = c) :=
      Finset.filter_congr hagree
    have hlast : (t ++ [a]).getD t.length EMPTY = a := by
      rw [List.getD_append_right _ _ _ _ (le_refl _)]
      simp
    have hnotmem : t.length ∉ (Finset.range t.length).filter
        (fun i => (t ++ [a]).getD i EMPTY = c) := by
      intro hmem
      exact absurd (Finset.mem_range.mp (Finset.mem_filter.mp hmem).1) (lt_irrefl _)
    by_cases hac : a = c
    · rw [if_pos (by rw [hlast]; exact hac)]
      rw [Finset.card_insert_of_not_mem hnotmem, hfe, ← ih]
      have : [a].count c = 1 := by
        subst hac
        simp
      omega
    · rw [if_neg (by rw [hlast]; exact hac)]
      rw [hfe, ← ih]
      have : [a].count c = 0 := by
        simp [List.count_singleton]
        intro hca
        exact absurd hca hac
      omega

theorem grid_connected_to_zero (N : Nat) :
    ∀ x, x < N ^ 2 → Relation.ReflTransGen (fun a b => b ∈ nbrs N a) x 0 := by
  intro x
  induction x using Nat.strong_induction_on with
  | _ x ih =>
    intro hx
    have hN : 0 < N := by
      rcases Nat.eq_zero_or_pos N with h0 | h0
      · subst h0; simp at hx
      · exact h0
    rcases Nat.eq_zero_or_pos x with rfl | hxpos
    · exact Relation.ReflTransGen.refl
    by_cases hmod : 1 ≤ x % N
    · have hstep : (x - 1) ∈ nbrs N x := by
        rw [mem_nbrs hx]
        exact Or.inr (Or.inr (Or.inr ⟨hmod, rfl⟩))
      exact Relation.ReflTransGen.head hstep (ih (x - 1) (by omega) (by omega))
    · have hdm := Nat.div_add_mod x N
      have hdiv : 1 ≤ x / N := by
        rcases Nat.eq_zero_or_pos (x / N) with h0 | h0
        · rw [h0] at hdm; omega
        · exact h0
      have hstep : (x - N) ∈ nbrs N x := by
        rw [mem_nbrs hx]
        exact Or.inr (Or.inl ⟨hdiv, rfl⟩)
      exact Relation.ReflTransGen.head hstep (ih (x - N) (by omega) (by omega))

theorem adj_rtg_symm {N : Nat} {a b : Nat}
    (h : Relation.ReflTransGen (fun u v => v ∈ nbrs N u) a b) :
    Relation.ReflTransGen (fun u v => v ∈ nbrs N u) b a := by
  induction h with
  | refl => exact Relation.ReflTransGen.refl
  | tail hab hbc ih =>
    exact Relation.ReflTransGen.head (mem_nbrs_symm hbc) ih

theorem grid_connected (N : Nat) {x y : Nat} (hx : x < N ^ 2) (hy : y < N ^ 2) :
    Relation.ReflTransGen (fun u v => v ∈ nbrs N u) x y :=
  Relation.ReflTransGen.trans (grid_connected_to_zero N x hx)
    (adj_rtg_symm (grid_connected_to_zero N y hy))

/-- Walking from an empty point to any stone, the first stone on the walk
is a boundary point of the empty region. -/
theorem path_border (N : Nat) (bd : List Cell) {a s : Nat}
    (hpath : Relation.ReflTransGen (fun u v => v ∈ nbrs N u) a s)
    (ha : bd.getD a EMPTY = EMPTY) (hs : ¬ bd.getD s EMPTY = EMPTY) :
    ∃ y z, reach N bd a z ∧ y ∈ nbrs N z ∧ ¬ bd.getD y EMPTY = EMPTY := by
  revert ha
  induction hpath using Relation.ReflTransGen.head_induction_on with
  | refl => intro ha; exact absurd ha hs
  | head hac hcs ih =>
    rename_i a2 c
    intro ha2
    by_cases hc : bd.getD c EMPTY = EMPTY
    · obtain ⟨y, z, hz, hy, hyne⟩ := ih hc
      refine ⟨y, z, ?_, hy, hyne⟩
      have hz2 : Relation.ReflTransGen (stepRel N bd (bd.getD a2 EMPTY)) c z := by
        rw [ha2]
        unfold reach at hz
        rw [hc] at hz
        exact hz
      exact Relation.ReflTransGen.head ⟨hac, hc.trans ha2.symm⟩ hz2
    · exact ⟨c, a2, Relation.ReflTransGen.refl, hac, hc⟩

/-- Loop invariant of `Position.score`: `bd` is the original board `b`
with some empty regions already filled, each filled cell matching its
spec-side classification, and no filled cell adjacent to a remaining
empty cell. -/
structure ScoreInv (N : Nat) (b bd : List Cell) : Prop where
  len : bd.length = b.length
  empties : ∀ x, bd.getD x EMPTY = EMPTY → b.getD x EMPTY = EMPTY
  stones : ∀ x, ¬ b.getD x EMPTY = EMPTY → bd.getD x EMPTY = b.getD x EMPTY
  filled_isolated : ∀ x, x < N ^ 2 → b.getD x EMPTY = EMPTY →
    ¬ bd.getD x EMPTY = EMPTY → ∀ y ∈ nbrs N x, ¬ bd.getD y EMPTY = EMPTY
  filled_class : ∀ x, x < N ^ 2 → b.getD x EMPTY = EMPTY →
    ¬ bd.getD x EMPTY = EMPTY →
    (bd.getD x EMPTY = BLACK ∧ isTerritoryOf N b BLACK x) ∨
    (bd.getD x EMPTY = WHITE ∧ isTerritoryOf N b WHITE x) ∨
    (bd.getD x EMPTY = NEUTRAL ∧ ¬ isTerritoryOf N b BLACK x ∧
      ¬ isTerritoryOf N b WHITE x)

theorem scoreInv_refl (N : Nat) (b : List Cell) : ScoreInv N b b :=
  ⟨rfl, fun _ h => h, fun _ _ => rfl, fun _ _ he hne _ _ => absurd he hne,
   fun _ _ he hne => absurd he hne⟩

theorem rtg_step_color {N : Nat} {board : List Cell} {color : Cell} {a z : Nat}
    (h : Relation.ReflTransGen (stepRel N board color) a z) :
    z = a ∨ board.getD z EMPTY = color := by
  induction h with
  | refl => exact Or.inl rfl
  | tail hab hbc ih => exact Or.inr hbc.2

/-- Remaining empty regions are untouched by the fills recorded in the
invariant: reachability through empties agrees between `bd` and `b`. -/
theorem inv_reach_transfer {N : Nat} {b bd : List Cell} (inv : ScoreInv N b bd)
    {x : Nat} (hx : x < N ^ 2) (hempty : bd.getD x EMPTY = EMPTY) :
    ∀ z, reach N bd x z ↔ reach N b x z := by
  have hbx : b.getD x EMPTY = EMPTY := inv.empties x hempty
  intro z
  unfold reach
  rw [hempty, hbx]
  constructor
  · intro h
    induction h with
    | refl => exact Relation.ReflTransGen.refl
    | tail hab hbc ih =>
      exact Relation.ReflTransGen.tail ih ⟨hbc.1, inv.empties _ hbc.2⟩
  · intro h
    induction h with
    | refl => exact Relation.ReflTransGen.refl
    | tail hab hbc ih =>
      rename_i z1 z2
      have hz1bd : bd.getD z1 EMPTY = EMPTY := by
        rcases rtg_step_color ih with rfl | hcol
        · exact hempty
        · exact hcol
      have hz2lt : z2 < N ^ 2 := mem_nbrs_lt hbc.1
      have hz2bd : bd.getD z2 EMPTY = EMPTY := by
        by_contra hne
        exact inv.filled_isolated z2 hz2lt hbc.2 hne z1 (mem_nbrs_symm hbc.1) hz1bd
      exact Relation.ReflTransGen.tail ih ⟨hbc.1, hz2bd⟩

/-- Boundaries of a remaining empty region agree between `bd` and `b`,
both as sets and in the colors they carry. -/
theorem inv_border_transfer {N : Nat} {b bd : List Cell} (inv : ScoreInv N b bd)
    {x : Nat} (hx : x < N ^ 2) (hempty : bd.getD x EMPTY = EMPTY) :
    ∀ y, (regionBorder N bd x y ↔ regionBorder N b x y) ∧
      (regionBorder N bd x y → bd.getD y EMPTY = b.getD y EMPTY) := by
  have hbx : b.getD x EMPTY = EMPTY := inv.empties x hempty
  intro y
  have hfwd : regionBorder N bd x y → ¬ b.getD y EMPTY = EMPTY := by
    rintro ⟨z, hz, hn, hne⟩
    rw [hempty] at hne
    intro hby
    have hylt : y < N ^ 2 := mem_nbrs_lt hn
    have hbdz : bd.getD z EMPTY = EMPTY := by
      rcases rtg_step_color hz with rfl | hcol
      · exact hempty
      · rw [hempty] at hcol
        exact hcol
    have hbdy : ¬ bd.getD y EMPTY = EMPTY := hne
    exact inv.filled_isolated y hylt hby hbdy z (mem_nbrs_symm hn) hbdz
  constructor
  · constructor
    · rintro hbord
      have hbyne : ¬ b.getD y EMPTY = EMPTY := hfwd hbord
      obtain ⟨z, hz, hn, hne⟩ := hbord
      refine ⟨z, (inv_reach_transfer inv hx hempty z).mp hz, hn, ?_⟩
      rw [hbx]
      exact hbyne
    · rintro ⟨z, hz, hn, hne⟩
      rw [hbx] at hne
      refine ⟨z, (inv_reach_transfer inv hx hempty z).mpr hz, hn, ?_⟩
      rw [hempty]
      rw [inv.stones y hne]
      exact hne
  · intro hbord
    exact inv.stones y (hfwd hbord)

/-- Region mates have the same boundary set. -/
theorem regionBorder_shift {N : Nat} {b : List Cell} {x x2 y : Nat}
    (hx2 : reach N b x x2) :
    regionBorder N b x2 y ↔ regionBorder N b x y := by
  have hcol : b.getD x2 EMPTY = b.getD x EMPTY := reach_color hx2
  unfold regionBorder
  constructor
  · rintro ⟨z, hz, hn, hne⟩
    refine ⟨z, (reach_of_reach_mem hx2).mp hz, hn, ?_⟩
    rwa [hcol] at hne
  · rintro ⟨z, hz, hn, hne⟩
    refine ⟨z, (reach_of_reach_mem hx2).mpr hz, hn, ?_⟩
    rwa [← hcol] at hne

theorem terr_unique {N : Nat} {b : List Cell} {x : Nat}
    (hB : isTerritoryOf N b BLACK x) (hW : isTerritoryOf N b WHITE x) : False := by
  obtain ⟨_, ⟨y, hy⟩, hallB⟩ := hB
  obtain ⟨_, _, hallW⟩ := hW
  have h1 := hallB y hy
  have h2 := hallW y hy
  rw [h1] at h2
  exact absurd h2 (by decide)

theorem mem_reached_iff_border {N : Nat} {bd : List Cell} {fempty : Nat}
    (hfe : fempty < N ^ 2) (y : Nat) :
    y ∈ (find_reached N bd fempty).2 ↔ regionBorder N bd fempty y := by
  rw [(find_reached_spec N bd fempty hfe y).2]
  unfold regionBorder
  exact Iff.rfl

theorem fill_getD (N : Nat) (bd : List Cell) (fempty : Nat) (hfe : fempty < N ^ 2)
    (hlen2 : bd.length = N ^ 2) (c0 : Cell) (j : Nat) :
    (bulk_place_stones c0 bd (setToList N (find_reached N bd fempty).1)).getD j EMPTY
      = if j ∈ (find_reached N bd fempty).1 then c0 else bd.getD j EMPTY := by
  rw [bulk_place_getD]
  by_cases hj : j ∈ (find_reached N bd fempty).1
  · have hjlt : j < N ^ 2 :=
      reach_lt hfe (((find_reached_spec N bd fempty hfe j).1).mp hj)
    rw [if_pos ⟨mem_setToList.mpr ⟨hjlt, hj⟩, by rw [hlen2]; exact hjlt⟩, if_pos hj]
  · rw [if_neg (fun hcond => hj ((mem_setToList.mp hcond.1).2)), if_neg hj]

theorem scoreInv_step (N : Nat) (b bd : List Cell) (hblen : b.length = N ^ 2)
    (inv : ScoreInv N b bd) (fempty : Nat) (hfe : fempty < N ^ 2)
    (hfee : bd.getD fempty EMPTY = EMPTY) (c0 : Cell) (hc0ne : ¬ c0 = EMPTY)
    (hclass : ∀ x, reach N bd fempty x →
      (c0 = BLACK ∧ isTerritoryOf N b BLACK x) ∨
      (c0 = WHITE ∧ isTerritoryOf N b WHITE x) ∨
      (c0 = NEUTRAL ∧ ¬ isTerritoryOf N b BLACK x ∧ ¬ isTerritoryOf N b WHITE x)) :
    ScoreInv N b (bulk_place_stones c0 bd
      (setToList N (find_reached N bd fempty).1)) := by
  have hlen2 : bd.length = N ^ 2 := by rw [inv.len, hblen]
  have hmem : ∀ j, j ∈ (find_reached N bd fempty).1 ↔ reach N bd fempty j :=
    fun j => (find_reached_spec N bd fempty hfe j).1
  have hbd' := fill_getD N bd fempty hfe hlen2 c0
  have hchain_bd : ∀ j, j ∈ (find_reached N bd fempty).1 →
      bd.getD j EMPTY = EMPTY := by
    intro j hj
    rw [reach_color ((hmem j).mp hj), hfee]
  refine ⟨?_, ?_, ?_, ?_, ?_⟩
  · rw [bulk_place_length, inv.len]
  · intro x hx
    rw [hbd'] at hx
    by_cases hxc : x ∈ (find_reached N bd fempty).1
    · rw [if_pos hxc] at hx
      exact absurd hx hc0ne
    · rw [if_neg hxc] at hx
      exact inv.empties x hx
  · intro x hbne
    rw [hbd']
    have hxc : x ∉ (find_reached N bd fempty).1 := by
      intro hxc
      exact hbne (inv.empties x (hchain_bd x hxc))
    rw [if_neg hxc]
    exact inv.stones x hbne
  · intro x hxlt hbe hne2 y hy
    rw [hbd']
    by_cases hyc : y ∈ (find_reached N bd fempty).1
    · rw [if_pos hyc]
      exact hc0ne
    · rw [if_neg hyc]
      rw [hbd'] at hne2
      by_cases hxc : x ∈ (find_reached N bd fempty).1
      · intro hbdy
        apply hyc
        rw [hmem y]
        exact Relation.ReflTransGen.tail ((hmem x).mp hxc)
          ⟨hy, by rw [hfee]; exact hbdy⟩
      · rw [if_neg hxc] at hne2
        exact inv.filled_isolated x hxlt hbe hne2 y hy
  · intro x hxlt hbe hne2
    rw [hbd'] at hne2 ⊢
    by_cases hxc : x ∈ (find_reached N bd fempty).1
    · rw [if_pos hxc] at hne2 ⊢
      rcases hclass x ((hmem x).mp hxc) with ⟨hc, ht⟩ | ⟨hc, ht⟩ | ⟨hc, htB, htW⟩
      · exact Or.inl ⟨hc, ht⟩
      · exact Or.inr (Or.inl ⟨hc, ht⟩)
      · exact Or.inr (Or.inr ⟨hc, htB, htW⟩)
    · rw [if_neg hxc] at hne2 ⊢
      exact inv.filled_class x hxlt hbe hne2

/-- When every boundary point of the region carries the same color, the
region is territory of that color in the original board. -/
theorem class_of_uniform {N : Nat} {b bd : List Cell} (hblen : b.length = N ^ 2)
    (hwf : ∀ cell ∈ b, cell = EMPTY ∨ cell = BLACK ∨ cell = WHITE)
    (inv : ScoreInv N b bd) {fempty : Nat} (hfe : fempty < N ^ 2)
    (hfee : bd.getD fempty EMPTY = EMPTY) {y0 : Nat}
    (hy0 : y0 ∈ (find_reached N bd fempty).2)
    (hall : ∀ fb ∈ (find_reached N bd fempty).2,
      bd.getD fb EMPTY = bd.getD y0 EMPTY) :
    (bd.getD y0 EMPTY = BLACK ∨ bd.getD y0 EMPTY = WHITE) ∧
    ∀ x, reach N bd fempty x → isTerritoryOf N b (bd.getD y0 EMPTY) x := by
  have hbord0 : regionBorder N bd fempty y0 := (mem_reached_iff_border hfe y0).mp hy0
  have hb_b0 : regionBorder N b fempty y0 :=
    ((inv_border_transfer inv hfe hfee y0).1).mp hbord0
  have hval0 : bd.getD y0 EMPTY = b.getD y0 EMPTY :=
    (inv_border_transfer inv hfe hfee y0).2 hbord0
  have hy0ne : ¬ b.getD y0 EMPTY = EMPTY := by
    obtain ⟨z, hz, hn, hne⟩ := hb_b0
    intro h
    exact hne (by rw [h, inv.empties fempty hfee])
  have hy0lt : y0 < N ^ 2 := by
    obtain ⟨z, hz, hn, _⟩ := hb_b0
    exact mem_nbrs_lt hn
  have hy0wf : b.getD y0 EMPTY = EMPTY ∨ b.getD y0 EMPTY = BLACK ∨
      b.getD y0 EMPTY = WHITE := by
    have hmem2 : b.getD y0 EMPTY ∈ b := by
      rw [List.getD_eq_getElem b EMPTY (by omega)]
      exact List.getElem_mem _
    exact hwf _ hmem2
  constructor
  · rw [hval0]
    tauto
  · intro x hx
    have hx_b : reach N b fempty x := (inv_reach_transfer inv hfe hfee x).mp hx
    refine ⟨inv.empties x (by rw [reach_color hx, hfee]), ⟨y0, ?_⟩, ?_⟩
    · exact (regionBorder_shift hx_b).mpr hb_b0
    · intro y hy
      have hyf : regionBorder N b fempty y := (regionBorder_shift hx_b).mp hy
      have hybd : regionBorder N bd fempty y :=
        ((inv_border_transfer inv hfe hfee y).1).mpr hyf
      have hymem : y ∈ (find_reached N bd fempty).2 :=
        (mem_reached_iff_border hfe y).mpr hybd
      have hval : bd.getD y EMPTY = b.getD y EMPTY :=
        (inv_border_transfer inv hfe hfee y).2 hybd
      rw [← hval]
      exact hall y hymem

/-- When the boundary carries two different colors, the region is not
territory of any color in the original board. -/
theorem class_of_mixed {N : Nat} {b bd : List Cell}
    (inv : ScoreInv N b bd) {fempty : Nat} (hfe : fempty < N ^ 2)
    (hfee : bd.getD fempty EMPTY = EMPTY) {y0 : Nat}
    (hy0 : y0 ∈ (find_reached N bd fempty).2)
    (hnall : ¬ ∀ fb ∈ (find_reached N bd fempty).2,
      bd.getD fb EMPTY = bd.getD y0 EMPTY) :
    ∀ x, reach N bd fempty x → ∀ c, ¬ isTerritoryOf N b c x := by
  intro x hx c ht
  obtain ⟨hxe, hex, hallc⟩ := ht
  push_neg at hnall
  obtain ⟨fb, hfb, hfbne⟩ := hnall
  have hx_b : reach N b fempty x := (inv_reach_transfer inv hfe hfee x).mp hx
  have hborder_val : ∀ y, y ∈ (find_reached N bd fempty).2 →
      bd.getD y EMPTY = c := by
    intro y hy
    have hybd : regionBorder N bd fempty y := (mem_reached_iff_border hfe y).mp hy
    have hyb : regionBorder N b fempty y :=
      ((inv_border_transfer inv hfe hfee y).1).mp hybd
    have hyx : regionBorder N b x y := (regionBorder_shift hx_b).mpr hyb
    have hval : bd.getD y EMPTY = b.getD y EMPTY :=
      (inv_border_transfer inv hfe hfee y).2 hybd
    rw [hval]
    exact hallc y hyx
  apply hfbne
  rw [hborder_val fb hfb, hborder_val y0 hy0]

/-- Filling a whole empty region with a non-empty color strictly reduces
the number of empty cells. -/
theorem fill_count_decrease (N : Nat) (bd : List Cell) (fempty : Nat)
    (hfe : fempty < N ^ 2) (hlen2 : bd.length = N ^ 2)
    (hfee : bd.getD fempty EMPTY = EMPTY) (c0 : Cell) (hc0 : ¬ c0 = EMPTY) :
    (bulk_place_stones c0 bd
      (setToList N (find_reached N bd fempty).1)).count EMPTY < bd.count EMPTY := by
  have hbd' := fill_getD N bd fempty hfe hlen2 c0
  have hlen3 : (bulk_place_stones c0 bd
      (setToList N (find_reached N bd fempty).1)).length = bd.length :=
    bulk_place_length _ _ _
  rw [count_eq_card, count_eq_card, hlen3]
  apply Finset.card_lt_card
  rw [Finset.ssubset_iff_of_subset]
  · refine ⟨fempty, ?_, ?_⟩
    · exact Finset.mem_filter.mpr ⟨Finset.mem_range.mpr (by omega), hfee⟩
    · intro hmem
      have := (Finset.mem_filter.mp hmem).2
      rw [hbd', if_pos (mem_chain_self N bd fempty)] at this
      exact hc0 this
  · intro j hj
    rcases Finset.mem_filter.mp hj with ⟨hjr, hje⟩
    rw [hbd'] at hje
    by_cases hjc : j ∈ (find_reached N bd fempty).1
    · rw [if_pos hjc] at hje
      exact absurd hje hc0
    · rw [if_neg hjc] at hje
      exact Finset.mem_filter.mpr ⟨hjr, hje⟩

theorem score_go_succ (N : Nat) (fuel : Nat) (board : List Cell) :
    score_go N (fuel + 1) board =
      (if EMPTY ∈ board then
        if (find_reached N board (board.indexOf EMPTY)).2 = ∅ then 0
        else
          if ∀ fb ∈ (find_reached N board (board.indexOf EMPTY)).2,
              board.getD fb EMPTY = board.getD
                ((setToList N (find_reached N board (board.indexOf EMPTY)).2).headI)
                EMPTY then
            score_go N fuel (bulk_place_stones
              (board.getD
                ((setToList N (find_reached N board (board.indexOf EMPTY)).2).headI)
                EMPTY)
              board (setToList N (find_reached N board (board.indexOf EMPTY)).1))
          else
            score_go N fuel (bulk_place_stones NEUTRAL board
              (setToList N (find_reached N board (board.indexOf EMPTY)).1))
      else (board.count BLACK : Int) - (board.count WHITE : Int) - 1) := rfl

open scoped Classical in
/-- On a fully filled board satisfying the invariant, the stone count of a
color equals the number of its spec-side score points. -/
theorem score_count_spec (N : Nat) (b bd : List Cell) (hblen : b.length = N ^ 2)
    (inv : ScoreInv N b bd) (hfull : ¬ EMPTY ∈ bd) (c : Cell)
    (hc : c = BLACK ∨ c = WHITE) :
    bd.count c = ((Finset.range (N ^ 2)).filter (fun x => scorePoint N b c x)).card := by
  have hlen2 : bd.length = N ^ 2 := by rw [inv.len, hblen]
  rw [count_eq_card, hlen2]
  congr 1
  apply Finset.filter_congr
  intro i hi
  rw [Finset.mem_range] at hi
  have hbdne : ¬ bd.getD i EMPTY = EMPTY := by
    intro he
    apply hfull
    rw [← he, List.getD_eq_getElem bd EMPTY (by omega)]
    exact List.getElem_mem _
  have hcE : ¬ c = EMPTY := by rcases hc with rfl | rfl <;> decide
  constructor
  · intro hbi
    by_cases hbe : b.getD i EMPTY = EMPTY
    · rcases inv.filled_class i hi hbe hbdne with ⟨hv, ht⟩ | ⟨hv, ht⟩ | ⟨hv, htB, htW⟩
      · have hcb : c = BLACK := by rw [← hbi, hv]
        subst hcb
        exact Or.inr ht
      · have hcw : c = WHITE := by rw [← hbi, hv]
        subst hcw
        exact Or.inr ht
      · have hcn : c = NEUTRAL := by rw [← hbi, hv]
        rcases hc with rfl | rfl <;> exact absurd hcn (by decide)
    · exact Or.inl (by rw [← inv.stones i hbe, hbi])
  · intro hsp
    rcases hsp with hbi | ht
    · have hbne : ¬ b.getD i EMPTY = EMPTY := by rw [hbi]; exact hcE
      rw [inv.stones i hbne, hbi]
    · have hbe := ht.1
      rcases inv.filled_class i hi hbe hbdne with ⟨hv, ht2⟩ | ⟨hv, ht2⟩ | ⟨hv, htB, htW⟩
      · rcases hc with rfl | rfl
        · exact hv
        · exact (terr_unique ht2 ht).elim
      · rcases hc with rfl | rfl
        · exact (terr_unique ht ht2).elim
        · exact hv
      · rcases hc with rfl | rfl
        · exact (htB ht).elim
        · exact (htW ht).elim

open scoped Classical in
/-- The scoring loop computes the spec-side area score whenever the
original board has at least one stone. -/
theorem score_go_spec (N : Nat) (b : List Cell) (hblen : b.length = N ^ 2)
    (hwf : ∀ cell ∈ b, cell = EMPTY ∨ cell = BLACK ∨ cell = WHITE)
    (hstone : ∃ s, s < N ^ 2 ∧ ¬ b.getD s EMPTY = EMPTY) :
    ∀ (fuel : Nat) (bd : List Cell), ScoreInv N b bd → bd.count EMPTY < fuel →
      score_go N fuel bd =
        (((Finset.range (N ^ 2)).filter (fun x => scorePoint N b BLACK x)).card : Int)
          - (((Finset.range (N ^ 2)).filter (fun x => scorePoint N b WHITE x)).card : Int)
          - 1 := by
  intro fuel
  induction fuel with
  | zero => intro bd _ hcount; omega
  | succ fuel ih =>
    intro bd inv hcount
    have hlen2 : bd.length = N ^ 2 := by rw [inv.len, hblen]
    rw [score_go_succ]
    by_cases hE : EMPTY ∈ bd
    · have hfe_len : bd.indexOf EMPTY < bd.length := List.indexOf_lt_length.mpr hE
      have hfe : bd.indexOf EMPTY < N ^ 2 := by omega
      have hfee : bd.getD (bd.indexOf EMPTY) EMPTY = EMPTY := by
        rw [List.getD_eq_getElem bd EMPTY hfe_len]
        exact List.getElem_indexOf hfe_len
      obtain ⟨s, hslt, hsb⟩ := hstone
      have hsbd : ¬ bd.getD s EMPTY = EMPTY := by
        rw [inv.stones s hsb]
        exact hsb
      obtain ⟨y, z, hz, hn, hyne⟩ :=
        path_border N bd (grid_connected N hfe hslt) hfee hsbd
      have hbne : (find_reached N bd (bd.indexOf EMPTY)).2 ≠ ∅ := by
        intro hempty_set
        have hymem : y ∈ (find_reached N bd (bd.indexOf EMPTY)).2 := by
          rw [(find_reached_spec N bd _ hfe y).2]
          exact ⟨z, hz, hn, by rw [hfee]; exact hyne⟩
        rw [hempty_set] at hymem
        exact Finset.not_mem_empty y hymem
      have hy0 : ((setToList N (find_reached N bd (bd.indexOf EMPTY)).2).headI)
          ∈ (find_reached N bd (bd.indexOf EMPTY)).2 := by
        refine setToList_headI_mem ?_ hbne
        intro y hy
        obtain ⟨z2, hz2, hn2, _⟩ := ((find_reached_spec N bd _ hfe y).2).mp hy
        exact mem_nbrs_lt hn2
      rw [if_pos hE, if_neg hbne]
      by_cases hall : ∀ fb ∈ (find_reached N bd (bd.indexOf EMPTY)).2,
          bd.getD fb EMPTY = bd.getD
            ((setToList N (find_reached N bd (bd.indexOf EMPTY)).2).headI) EMPTY
      · rw [if_pos hall]
        obtain ⟨hbw, hterr⟩ := class_of_uniform hblen hwf inv hfe hfee hy0 hall
        have hc0ne : ¬ bd.getD
            ((setToList N (find_reached N bd (bd.indexOf EMPTY)).2).headI) EMPTY
            = EMPTY := by
          rcases hbw with h | h <;> rw [h] <;> decide
        apply ih
        · refine scoreInv_step N b bd hblen inv _ hfe hfee _ hc0ne ?_
          intro x hx
          rcases hbw with h | h
          · exact Or.inl ⟨h, h ▸ hterr x hx⟩
          · exact Or.inr (Or.inl ⟨h, h ▸ hterr x hx⟩)
        · have := fill_count_decrease N bd _ hfe hlen2 hfee _ hc0ne
          omega
      · rw [if_neg hall]
        have hmixed := class_of_mixed inv hfe hfee hy0 hall
        apply ih
        · refine scoreInv_step N b bd hblen inv _ hfe hfee NEUTRAL (by decide) ?_
          intro x hx
          exact Or.inr (Or.inr ⟨rfl, hmixed x hx BLACK, hmixed x hx WHITE⟩)
        · have := fill_count_decrease N bd _ hfe hlen2 hfee NEUTRAL (by decide)
          omega
    · rw [if_neg hE]
      rw [score_count_spec N b bd hblen inv hE BLACK (Or.inl rfl),
        score_count_spec N b bd hblen inv hE WHITE (Or.inr rfl)]

theorem play_opp_result_nil (N : Nat) (b : List Cell) (l : List Nat)
    (h : (play_opp_result N b l).2 = []) : (play_opp_result N b l).1 = b := by
  obtain ⟨extra, he, hbd⟩ := play_opp_foldl_acc N l b []
  unfold play_opp_result at h ⊢
  rw [h, List.nil_append] at he
  exact hbd he.symm

theorem my_fold_id (N : Nat) :
    ∀ (l : List Nat) (bd : List Cell),
      (∀ fn ∈ l, fn < N ^ 2 ∧ bd.getD fn EMPTY = EMPTY) →
      l.foldl (fun b fs => (maybe_capture_stones N b fs).1) bd = bd := by
  intro l
  induction l with
  | nil => intro bd _; rfl
  | cons fn t ih =>
    intro bd h
    rw [List.foldl_cons]
    obtain ⟨hlt, he⟩ := h fn (List.mem_cons_self fn t)
    have hmc : (maybe_capture_stones N bd fn).1 = bd := by
      rw [mc_empty_cell N bd fn hlt he]
    rw [hmc]
    exact ih bd (fun x hx => h x (List.mem_cons_of_mem _ hx))

theorem score_go_all_empty (N : Nat) (hN : 1 ≤ N) (b : List Cell)
    (hlen : b.length = N ^ 2) (hall : ∀ cell ∈ b, cell = EMPTY) :
    score_go N (b.length + 1) b = 0 := by
  rw [score_go_succ]
  have hpos : 0 < N ^ 2 := by positivity
  have hmem : EMPTY ∈ b := by
    have hlpos : 0 < b.length := by omega
    cases b with
    | nil => simp at hlpos
    | cons a t =>
      rw [← hall a (List.mem_cons_self a t)]
      exact List.mem_cons_self a t
  rw [if_pos hmem]
  have hfe_len : b.indexOf EMPTY < b.length := List.indexOf_lt_length.mpr hmem
  have hgetD_all : ∀ j, j < N ^ 2 → b.getD j EMPTY = EMPTY := by
    intro j hj
    rw [List.getD_eq_getElem b EMPTY (by omega)]
    exact hall _ (List.getElem_mem _)
  have hbord : (find_reached N b (b.indexOf EMPTY)).2 = ∅ := by
    rw [Finset.eq_empty_iff_forall_not_mem]
    intro y hy
    obtain ⟨z, hz, hn, hne⟩ := ((find_reached_spec N b _ (by omega) y).2).mp hy
    exact hne (by rw [hgetD_all y (mem_nbrs_lt hn), hgetD_all _ (by omega)])
  rw [if_pos hbord]

theorem score_empty_initial (N : Nat) (hN : 1 ≤ N) :
    Position.score N (Position.initial_state N) = 0 := by
  show score_go N ((List.replicate (N ^ 2) EMPTY).length + 1)
    (List.replicate (N ^ 2) EMPTY) = 0
  exact score_go_all_empty N hN _ (by simp)
    (fun c hc => List.eq_of_mem_replicate hc)

/-! ### Claim theorems -/

/-- C1: for every Position `p`, flat coordinate `fc` and color,
`play_move` signals `IllegalMove` (returns `none`) if and only if `fc`
equals `p.ko` or `p.board[fc]` is not empty; in particular it never
signals `IllegalMove` for a suicide move. -/
theorem claim_play_illegal_iff (N : Nat) (p : Position) (fc : Nat) (color : Cell) :
    Position.play_move N p fc color = none ↔
      (p.ko = some fc ∨ p.board.getD fc EMPTY ≠ EMPTY) :=
  play_move_none_iff N p fc color

/-- C3: `find_reached(board, fc)` returns the pair `(chain, reached)` where
`chain` is exactly the maximal connected component of cells of color
`board[fc]` containing `fc`, and `reached` is exactly the set of
coordinates adjacent to some chain cell whose color differs from
`board[fc]`.  The board is a pure input: `find_reached` only returns the
pair and never produces a modified board. -/
theorem claim_find_reached_component (N : Nat) (board : List Cell) (fc x : Nat)
    (h1 : fc < N ^ 2) :
    (x ∈ (find_reached N board fc).1 ↔ reach N board fc x) ∧
    (x ∈ (find_reached N board fc).2 ↔ ∃ z, reach N board fc z ∧ x ∈ nbrs N z ∧
      ¬ board.getD x EMPTY = board.getD fc EMPTY) :=
  find_reached_spec N board fc h1 x

theorem claim_find_reached_component_witness :
    (0 : Nat) < 2 ^ 2 ∧
    ((1 ∈ (find_reached 2 [BLACK, BLACK, WHITE, EMPTY] 0).1 ↔
        reach 2 [BLACK, BLACK, WHITE, EMPTY] 0 1) ∧
      (1 ∈ (find_reached 2 [BLACK, BLACK, WHITE, EMPTY] 0).2 ↔
        ∃ z, reach 2 [BLACK, BLACK, WHITE, EMPTY] 0 z ∧ 1 ∈ nbrs 2 z ∧
          ¬ ([BLACK, BLACK, WHITE, EMPTY] : List Cell).getD 1 EMPTY
            = ([BLACK, BLACK, WHITE, EMPTY] : List Cell).getD 0 EMPTY)) :=
  ⟨by decide, claim_find_reached_component 2 [BLACK, BLACK, WHITE, EMPTY] 0 1 (by decide)⟩

/-- C9: every Position reachable from `initial_state` by successful
`play_move` calls has a board of length exactly `N ^ 2`; `initial_state`
produces a board of that length, and `place_stone` (at an in-range
coordinate) and `bulk_place_stones` preserve board length. -/
theorem claim_board_length_invariant (N : Nat) :
    (Position.initial_state N).board.length = N ^ 2 ∧
    (∀ (color : Cell) (board : List Cell) (fc : Nat), fc < board.length →
      (place_stone color board fc).length = board.length) ∧
    (∀ (color : Cell) (board : List Cell) (stones : List Nat),
      (bulk_place_stones color board stones).length = board.length) ∧
    (∀ p : Position, Reachable N p → p.board.length = N ^ 2) := by
  refine ⟨by simp [Position.initial_state], ?_, ?_, ?_⟩
  · exact fun color board fc h => place_stone_length color board fc h
  · exact fun color board stones => bulk_place_length color stones board
  · intro p hp
    induction hp with
    | init => simp [Position.initial_state]
    | step p fc color q hreach hfc hplay ih =>
      exact play_move_board_length N p fc color q hfc ih hplay

theorem claim_board_length_invariant_witness :
    (Position.initial_state 2).board.length = 2 ^ 2 :=
  (claim_board_length_invariant 2).2.2.2 (Position.initial_state 2) Reachable.init

/-- C10: for every board `b` and coordinate `fc` with `b[fc]` empty,
`maybe_capture_stones(b, fc)` returns the board unchanged together with a
non-empty captured set equal to the entire empty connected region
containing `fc` (an empty chain never has an empty boundary point), rather
than an empty captured set. -/
theorem claim_maybe_capture_empty (N : Nat) (b : List Cell) (fc : Nat)
    (h1 : fc < N ^ 2) (hc : b.getD fc EMPTY = EMPTY) :
    (maybe_capture_stones N b fc).1 = b ∧
    (maybe_capture_stones N b fc).2 ≠ ∅ ∧
    ∀ x, x ∈ (maybe_capture_stones N b fc).2 ↔ reach N b fc x := by
  rw [mc_empty_cell N b fc h1 hc]
  refine ⟨rfl, Finset.ne_empty_of_mem (mem_chain_self N b fc), ?_⟩
  intro x
  exact (find_reached_spec N b fc h1 x).1

theorem claim_maybe_capture_empty_witness :
    ((0 : Nat) < 2 ^ 2 ∧ ([EMPTY, BLACK, EMPTY, EMPTY] : List Cell).getD 0 EMPTY = EMPTY) ∧
    ((maybe_capture_stones 2 [EMPTY, BLACK, EMPTY, EMPTY] 0).1
        = [EMPTY, BLACK, EMPTY, EMPTY] ∧
      (maybe_capture_stones 2 [EMPTY, BLACK, EMPTY, EMPTY] 0).2 ≠ ∅ ∧
      ∀ x, x ∈ (maybe_capture_stones 2 [EMPTY, BLACK, EMPTY, EMPTY] 0).2 ↔
        reach 2 [EMPTY, BLACK, EMPTY, EMPTY] 0 x) :=
  ⟨⟨by decide, by decide⟩,
   claim_maybe_capture_empty 2 [EMPTY, BLACK, EMPTY, EMPTY] 0 (by decide) (by decide)⟩

/-- C2: after a successful `play_move`, the returned `ko` field is the
coordinate of the single captured stone exactly when opponent-capture
resolution captured exactly one coordinate and `is_koish` on the pre-move
board at `fc` is the opponent color; in every other case it is `none`. -/
theorem claim_play_ko (N : Nat) (p : Position) (fc : Nat) (color : Cell)
    (q : Position) (x : Nat) (h : Position.play_move N p fc color = some q) :
    q.ko = some x ↔
      ((play_opp_result N (place_stone color p.board fc)
          (play_opp_stones N (place_stone color p.board fc) fc color
            (swap_colors color))).2 = [x] ∧
        is_koish N p.board fc = some (swap_colors color)) := by
  by_cases hcond : p.ko = some fc ∨ p.board.getD fc EMPTY ≠ EMPTY
  · rw [(play_move_none_iff N p fc color).mpr hcond] at h
    exact Option.noConfusion h
  · rw [play_move_eq_some N p fc color hcond] at h
    have hko : q.ko = (if (play_opp_result N (place_stone color p.board fc)
          (play_opp_stones N (place_stone color p.board fc) fc color
            (swap_colors color))).2.length = 1
          ∧ is_koish N p.board fc = some (swap_colors color)
        then (play_opp_result N (place_stone color p.board fc)
          (play_opp_stones N (place_stone color p.board fc) fc color
            (swap_colors color))).2.head?
        else none) := by
      rw [← Option.some.inj h]
    rw [hko]
    by_cases hko2 : (play_opp_result N (place_stone color p.board fc)
        (play_opp_stones N (place_stone color p.board fc) fc color
          (swap_colors color))).2.length = 1
        ∧ is_koish N p.board fc = some (swap_colors color)
    · rw [if_pos hko2]
      obtain ⟨hlen1, hkoish⟩ := hko2
      obtain ⟨a, ha⟩ := List.length_eq_one.mp hlen1
      rw [ha]
      constructor
      · intro hx
        have hax : a = x := by
          rw [List.head?_cons] at hx
          exact Option.some.inj hx
        subst hax
        exact ⟨rfl, hkoish⟩
      · rintro ⟨hx, _⟩
        have hax : a = x := (List.cons_eq_cons.mp hx).1
        subst hax
        rfl
    · rw [if_neg hko2]
      constructor
      · intro hx
        exact Option.noConfusion hx
      · rintro ⟨hlist, hkoish⟩
        exact absurd ⟨by rw [hlist]; rfl, hkoish⟩ hko2

/-- The classic ko position used by the C2 witness and the C6 theorem,
on a 4 by 4 board: Black plays at flat coordinate 6 and captures the
single White stone at 5. -/
def koBefore : List Cell :=
  [EMPTY, BLACK, WHITE, EMPTY,
   BLACK, WHITE, EMPTY, WHITE,
   EMPTY, BLACK, WHITE, EMPTY,
   EMPTY, EMPTY, EMPTY, EMPTY]

/-- The board after Black plays at 6 in `koBefore`. -/
def koAfter : List Cell :=
  [EMPTY, BLACK, WHITE, EMPTY,
   BLACK, EMPTY, BLACK, WHITE,
   EMPTY, BLACK, WHITE, EMPTY,
   EMPTY, EMPTY, EMPTY, EMPTY]

theorem claim_play_ko_witness :
    Position.play_move 4 ⟨koBefore, none⟩ 6 BLACK = some ⟨koAfter, some 5⟩ ∧
    ((Position.mk koAfter (some 5)).ko = some 5 ↔
      ((play_opp_result 4 (place_stone BLACK koBefore 6)
          (play_opp_stones 4 (place_stone BLACK koBefore 6) 6 BLACK
            (swap_colors BLACK))).2 = [5] ∧
        is_koish 4 koBefore 6 = some (swap_colors BLACK))) :=
  ⟨by decide,
   claim_play_ko 4 ⟨koBefore, none⟩ 6 BLACK ⟨koAfter, some 5⟩ 5 (by decide)⟩

/-- C6: at the ko position `koBefore`, `play_move` stores `ko = 5` (the
captured stone's coordinate) while `find_ko_from_boards` on the same
before/after board pair returns `6` (the newly placed point): the round
trip does not recover the ko point produced by `play_move` itself. -/
theorem claim_find_ko_mismatch :
    Position.play_move 4 ⟨koBefore, none⟩ 6 BLACK = some ⟨koAfter, some 5⟩ ∧
    find_ko_from_boards 4 koBefore koAfter = some 6 ∧ (5 : Nat) ≠ 6 := by decide

/-- C7: with `ko = 0` (a state reachable through a corner ko capture) and
the corner point empty, `get_legal_moves` reports flat coordinate 0 as
legal even though it is the ko point (the source test `if self.ko:` is
false for `0`), while `play_move` itself rejects the same move. -/
theorem claim_legal_moves_ko_zero :
    (Position.get_legal_moves ⟨List.replicate 4 EMPTY, some 0⟩).getD 0 0 = 1 ∧
    (Position.mk (List.replicate 4 EMPTY) (some 0)).ko = some 0 ∧
    (List.replicate 4 EMPTY).getD 0 EMPTY = EMPTY ∧
    Position.play_move 2 ⟨List.replicate 4 EMPTY, some 0⟩ 0 BLACK = none := by decide

/-- C8 counterexample: the score of the entirely empty 9 by 9 board is 0
(the empty-boundary early return fires), not -1 as the claim states. -/
theorem claim_score_empty_counterexample :
    Position.score 9 (Position.initial_state 9) = 0 ∧ (0 : Int) ≠ -1 :=
  ⟨score_empty_initial 9 (by omega), by decide⟩

/-- C8 (amended): with the board configured to size 9, `score` of the
entirely empty `initial_state` board equals 0: the scoring loop floods the
whole board, finds an empty boundary set, and returns 0 immediately
instead of computing 0 - 0 - 1 = -1. -/
theorem claim_score_empty_amended :
    Position.score 9 (Position.initial_state 9) = 0 :=
  score_empty_initial 9 (by omega)

/-- A 3 by 3 suicide position: Black at 0, White at 2, 3 and 4.  Black
playing at 1 captures nothing and leaves the group at 0 and 1 with no
liberty. -/
def suicideBefore : List Cell :=
  [BLACK, EMPTY, WHITE,
   WHITE, WHITE, EMPTY,
   EMPTY, EMPTY, EMPTY]

/-- The board after Black plays the suicide at 1 in `suicideBefore`: the
whole Black group, including the pre-existing stone at 0, is removed. -/
def suicideAfter : List Cell :=
  [EMPTY, EMPTY, WHITE,
   WHITE, WHITE, EMPTY,
   EMPTY, EMPTY, EMPTY]

/-- C5 counterexample: Black's play at 1 on `suicideBefore` captures no
opponent stones and leaves the placed group without a liberty, yet
`play_move` returns `suicideAfter`, which differs from the pre-move board:
the pre-existing friendly stone at 0 was removed together with the placed
stone, so the board is not restored to its pre-move state. -/
theorem claim_play_suicide_counterexample :
    (play_opp_result 3 (place_stone BLACK suicideBefore 1)
        (play_opp_stones 3 (place_stone BLACK suicideBefore 1) 1 BLACK
          (swap_colors BLACK))).2 = [] ∧
    (¬ ∃ fr ∈ (find_reached 3 (play_opp_result 3 (place_stone BLACK suicideBefore 1)
          (play_opp_stones 3 (place_stone BLACK suicideBefore 1) 1 BLACK
            (swap_colors BLACK))).1 1).2,
        (play_opp_result 3 (place_stone BLACK suicideBefore 1)
          (play_opp_stones 3 (place_stone BLACK suicideBefore 1) 1 BLACK
            (swap_colors BLACK))).1.getD fr EMPTY = EMPTY) ∧
    Position.play_move 3 ⟨suicideBefore, none⟩ 1 BLACK
      = some ⟨suicideAfter, none⟩ ∧
    suicideAfter ≠ suicideBefore := by decide

/-- C5 (amended): when a legal move at `fc` captures no opponent stones
and the placed stone's group has no liberty after opponent resolution,
`play_move` returns the post-placement board with the entire placed group
erased; this equals the pre-move board exactly when that group is the
single placed stone. -/
theorem claim_play_suicide_removes_group (N : Nat) (p : Position) (fc : Nat)
    (color : Cell) (q : Position) (hfc : fc < N ^ 2)
    (hlen : p.board.length = N ^ 2)
    (hlegal : ¬ (p.ko = some fc ∨ p.board.getD fc EMPTY ≠ EMPTY))
    (hnocap : (play_opp_result N (place_stone color p.board fc)
        (play_opp_stones N (place_stone color p.board fc) fc color
          (swap_colors color))).2 = [])
    (hnolib : ¬ ∃ fr ∈ (find_reached N (play_opp_result N
          (place_stone color p.board fc)
          (play_opp_stones N (place_stone color p.board fc) fc color
            (swap_colors color))).1 fc).2,
        (play_opp_result N (place_stone color p.board fc)
          (play_opp_stones N (place_stone color p.board fc) fc color
            (swap_colors color))).1.getD fr EMPTY = EMPTY)
    (hq : Position.play_move N p fc color = some q) :
    q.board = bulk_place_stones EMPTY (place_stone color p.board fc)
        (setToList N (find_reached N (place_stone color p.board fc) fc).1) ∧
    ((find_reached N (place_stone color p.board fc) fc).1 = {fc} →
      q.board = p.board) := by
  have hlegal2 := hlegal
  push_neg at hlegal2
  have hkb : p.board.getD fc EMPTY = EMPTY := hlegal2.2
  have hflen : fc < p.board.length := by rw [hlen]; exact hfc
  rw [play_move_eq_some N p fc color hlegal] at hq
  have heq := Option.some.inj hq
  have hopp : (play_opp_result N (place_stone color p.board fc)
      (play_opp_stones N (place_stone color p.board fc) fc color
        (swap_colors color))).1 = place_stone color p.board fc :=
    play_opp_result_nil N _ _ hnocap
  rw [hopp] at hnolib
  have hnblen : (place_stone color p.board fc).length = N ^ 2 := by
    rw [place_stone_length color p.board fc hflen, hlen]
  have hqb : q.board = (play_my_stones N (place_stone color p.board fc) fc
      color).foldl (fun b fs => (maybe_capture_stones N b fs).1)
      (play_opp_result N (place_stone color p.board fc)
        (play_opp_stones N (place_stone color p.board fc) fc color
          (swap_colors color))).1 := by
    rw [← heq]
  have hmc1 : (maybe_capture_stones N (place_stone color p.board fc) fc).1
      = bulk_place_stones EMPTY (place_stone color p.board fc)
          (setToList N (find_reached N (place_stone color p.board fc) fc).1) := by
    unfold maybe_capture_stones
    rw [if_pos hnolib]
  have hfriends : ∀ fn ∈ (nbrs N fc).filter
      (fun fn => (place_stone color p.board fc).getD fn EMPTY = color),
      fn < N ^ 2 ∧ (bulk_place_stones EMPTY (place_stone color p.board fc)
        (setToList N (find_reached N (place_stone color p.board fc) fc).1)).getD
          fn EMPTY = EMPTY := by
    intro fn hfn
    rw [List.mem_filter] at hfn
    have hnbm := hfn.1
    have hcol : (place_stone color p.board fc).getD fn EMPTY = color :=
      of_decide_eq_true hfn.2
    have hlt := mem_nbrs_lt hnbm
    refine ⟨hlt, ?_⟩
    have hfcc : (place_stone color p.board fc).getD fc EMPTY = color := by
      rw [place_stone_getD color p.board fc hflen fc, if_pos rfl]
    have hreach : reach N (place_stone color p.board fc) fc fn := by
      refine Relation.ReflTransGen.single ⟨hnbm, ?_⟩
      rw [hcol, hfcc]
    have hchain : fn ∈ (find_reached N (place_stone color p.board fc) fc).1 :=
      ((find_reached_spec N _ fc hfc fn).1).mpr hreach
    rw [bulk_place_getD,
      if_pos ⟨mem_setToList.mpr ⟨hlt, hchain⟩, by rw [hnblen]; exact hlt⟩]
  have hmain : q.board = bulk_place_stones EMPTY (place_stone color p.board fc)
      (setToList N (find_reached N (place_stone color p.board fc) fc).1) := by
    rw [hqb, hopp]
    unfold play_my_stones
    rw [List.foldl_cons, hmc1]
    exact my_fold_id N _ _ hfriends
  refine ⟨hmain, ?_⟩
  intro hsingle
  rw [hmain, hsingle, setToList_singleton hfc]
  show (place_stone color p.board fc).set fc EMPTY = p.board
  rw [place_stone_eq_set color p.board fc hflen, List.set_set]
  exact set_getD_self p.board fc EMPTY hkb

theorem claim_play_suicide_removes_group_witness :
    (Position.mk ([EMPTY, WHITE, WHITE, EMPTY] : List Cell) none).board
      = bulk_place_stones EMPTY
          (place_stone BLACK [EMPTY, WHITE, WHITE, EMPTY] 0)
          (setToList 2 (find_reached 2
            (place_stone BLACK [EMPTY, WHITE, WHITE, EMPTY] 0) 0).1) ∧
    ((find_reached 2 (place_stone BLACK [EMPTY, WHITE, WHITE, EMPTY] 0) 0).1
        = {0} →
      (Position.mk ([EMPTY, WHITE, WHITE, EMPTY] : List Cell) none).board
        = [EMPTY, WHITE, WHITE, EMPTY]) :=
  claim_play_suicide_removes_group 2 ⟨[EMPTY, WHITE, WHITE, EMPTY], none⟩ 0 BLACK
    ⟨[EMPTY, WHITE, WHITE, EMPTY], none⟩ (by decide) (by decide) (by decide)
    (by decide) (by decide) (by decide)

open scoped Classical in
/-- C4: for a well-formed Position, `score` returns 0 when the board has
no stones; otherwise it returns (Black points) minus (White points) minus
1, where a point counts for a color if it carries a stone of that color
or is empty territory whose whole nonempty region boundary is that
color (regions touching both colors count for neither). -/
theorem claim_score_spec (N : Nat) (p : Position) (hN : 1 ≤ N)
    (hlen : p.board.length = N ^ 2)
    (hwf : ∀ cell ∈ p.board, cell = EMPTY ∨ cell = BLACK ∨ cell = WHITE) :
    Position.score N p =
      if ∀ cell ∈ p.board, cell = EMPTY then 0
      else
        (((Finset.range (N ^ 2)).filter
            (fun x => scorePoint N p.board BLACK x)).card : Int)
          - (((Finset.range (N ^ 2)).filter
              (fun x => scorePoint N p.board WHITE x)).card : Int)
          - 1 := by
  by_cases hall : ∀ cell ∈ p.board, cell = EMPTY
  · rw [if_pos hall]
    show score_go N (p.board.length + 1) p.board = 0
    exact score_go_all_empty N hN p.board hlen hall
  · rw [if_neg hall]
    push_neg at hall
    obtain ⟨cl, hclm, hclne⟩ := hall
    obtain ⟨i, hilen, hie⟩ := List.getElem_of_mem hclm
    have hstone : ∃ s, s < N ^ 2 ∧ ¬ p.board.getD s EMPTY = EMPTY := by
      refine ⟨i, by omega, ?_⟩
      rw [List.getD_eq_getElem p.board EMPTY hilen, hie]
      exact hclne
    show score_go N (p.board.length + 1) p.board = _
    exact score_go_spec N p.board hlen hwf hstone (p.board.length + 1) p.board
      (scoreInv_refl N p.board)
      (Nat.lt_succ_of_le (List.count_le_length _ _))

open scoped Classical in
theorem claim_score_spec_witness :
    Position.score 2 ⟨[BLACK, EMPTY, EMPTY, EMPTY], none⟩ =
      if ∀ cell ∈ ([BLACK, EMPTY, EMPTY, EMPTY] : List Cell), cell = EMPTY then 0
      else
        (((Finset.range (2 ^ 2)).filter
            (fun x => scorePoint 2 [BLACK, EMPTY, EMPTY, EMPTY] BLACK x)).card : Int)
          - (((Finset.range (2 ^ 2)).filter
              (fun x => scorePoint 2 [BLACK, EMPTY, EMPTY, EMPTY] WHITE x)).card : Int)
          - 1 :=
  claim_score_spec 2 ⟨[BLACK, EMPTY, EMPTY, EMPTY], none⟩ (by decide) (by decide)
    (by decide)
